import Mathlib

/-!
Verification of the route-search engine (`src/model.rs`, `src/search/mod.rs`).

Shallow embedding conventions:
* `u64` values (seconds, counters) are embedded as `Nat`; no arithmetic in the
  program approaches `2^64`, so wraparound is irrelevant.
* Geographic points are opaque tokens and the `f64` haversine distance is
  abstracted as an explicit `Point → Point → Rat` argument; the search only
  ever compares distances against `MAX_WALK_DISTANCE` and feeds them to
  `walk_time`, so exact rationals model every branch faithfully.
* Panics (`expect`, `unwrap`, indexing, `checked_sub`) are modelled as `none`.
-/

set_option linter.unusedVariables false

/-- `model::Day` (declaration order Monday..Sunday, which fixes the derived
`Ord`). -/
inductive Day
  | monday
  | tuesday
  | wednesday
  | thursday
  | friday
  | saturday
  | sunday
deriving DecidableEq

/-- `Day::index`: Sunday = 0, Monday = 1, ..., Saturday = 6. -/
def Day.index : Day → Nat
  | .sunday => 0
  | .monday => 1
  | .tuesday => 2
  | .wednesday => 3
  | .thursday => 4
  | .friday => 5
  | .saturday => 6

/-- Position of a `Day` in the Rust enum declaration; the derived `Ord` on
`Day` compares these positions. -/
def Day.rank : Day → Nat
  | .monday => 0
  | .tuesday => 1
  | .wednesday => 2
  | .thursday => 3
  | .friday => 4
  | .saturday => 5
  | .sunday => 6

/-- `model::DAYS`. -/
def DAYS : List Day :=
  [.monday, .tuesday, .wednesday, .thursday, .friday, .saturday, .sunday]

/-- `model::DayTime`: seconds, may exceed one day. -/
structure DayTime where
  raw : Nat
deriving DecidableEq

/-- `DayTime::new` (the Rust asserts `hours < 24`, `minutes < 60`; every use
in this file satisfies them). -/
def DayTime.new (hours minutes : Nat) : DayTime :=
  ⟨hours * 3600 + minutes * 60⟩

/-- `DayTime::offset`. -/
def DayTime.offset (t : DayTime) (off : Nat) : DayTime :=
  ⟨t.raw + off⟩

/-- `DayTime::neg_offset` (`self.raw - offset`; at its single call site the
subtraction never underflows, which is proved below, so truncated `Nat`
subtraction is faithful). -/
def DayTime.neg_offset (t : DayTime) (off : Nat) : DayTime :=
  ⟨t.raw - off⟩

/-- `model::Timestamp`. -/
structure Timestamp where
  day : Day
  time : DayTime
deriving DecidableEq

/-- The derived lexicographic `Ord` on `Timestamp` (field order: day, then
time; `Day` compares by declaration position, `DayTime` by `raw`). -/
def Timestamp.cmp (a b : Timestamp) : Ordering :=
  if a.day.rank < b.day.rank then .lt
  else if b.day.rank < a.day.rank then .gt
  else if a.time.raw < b.time.raw then .lt
  else if b.time.raw < a.time.raw then .gt
  else .eq

/-- The derived strict `<` on `Timestamp`. -/
def Timestamp.lt (a b : Timestamp) : Prop :=
  Timestamp.cmp a b = Ordering.lt

instance (a b : Timestamp) : Decidable (Timestamp.lt a b) := by
  unfold Timestamp.lt
  infer_instance

/-- `Timestamp::offset`. -/
def Timestamp.offset (t : Timestamp) (off : Nat) : Timestamp :=
  ⟨t.day, t.time.offset off⟩

/-- `Timestamp::neg_offset`. -/
def Timestamp.neg_offset (t : Timestamp) (off : Nat) : Timestamp :=
  ⟨t.day, t.time.neg_offset off⟩

/-- `Timestamp::compare_using_departure`. -/
def Timestamp.compare_using_departure (self other departure : Timestamp) :
    Ordering :=
  if self = other then .eq
  else if self = departure then .lt
  else if other = departure then .gt
  else if Timestamp.lt self other ∧ Timestamp.lt other departure then .lt
  else if Timestamp.lt other departure ∧ Timestamp.lt departure self then .lt
  else if Timestamp.lt departure self ∧ Timestamp.lt self other then .lt
  else .gt

/-- The day two days ahead, as matched in `Timestamp::is_followed_by`. -/
def Day.twoAhead : Day → Day
  | .monday => .wednesday
  | .tuesday => .thursday
  | .wednesday => .friday
  | .thursday => .saturday
  | .friday => .sunday
  | .saturday => .monday
  | .sunday => .tuesday

/-- `Timestamp::is_followed_by`. -/
def Timestamp.is_followed_by (self other : Timestamp) : Bool :=
  let departure : Timestamp := ⟨Day.twoAhead self.day, DayTime.new 0 0⟩
  if Timestamp.compare_using_departure self other departure = Ordering.gt then
    false
  else
    true

/-- Seconds in a week. -/
def WEEK : Nat := 7 * 86400

/-- Position of a timestamp on the linear Monday-based axis (days at their
declaration rank). Faithful to the derived order whenever `time.raw < 86400`. -/
def Timestamp.linear (t : Timestamp) : Nat :=
  t.day.rank * 86400 + t.time.raw

/-- Spec-side projection: `(t − dep) mod 7 days`, the position of `t` on the
week unrolled from `dep` (spec wording of `compareUsingDeparture`). -/
def specProjection (dep t : Timestamp) : Nat :=
  (t.linear + WEEK - dep.linear) % WEEK

/-- Convenience literal timestamp. -/
def tsOf (d : Day) (h m : Nat) : Timestamp :=
  ⟨d, DayTime.new h m⟩

theorem Day.rank_lt_7 (d : Day) : d.rank < 7 := by
  cases d <;> simp [Day.rank]

theorem Day.rank_inj {d e : Day} (h : d.rank = e.rank) : d = e := by
  cases d <;> cases e <;> simp_all [Day.rank]

theorem Timestamp.linear_lt_WEEK {t : Timestamp} (h : t.time.raw < 86400) :
    t.linear < WEEK := by
  have := Day.rank_lt_7 t.day
  unfold Timestamp.linear WEEK
  omega

theorem Timestamp.eq_iff_linear {a b : Timestamp}
    (ha : a.time.raw < 86400) (hb : b.time.raw < 86400) :
    a = b ↔ a.linear = b.linear := by
  constructor
  · intro h; rw [h]
  · intro h
    unfold Timestamp.linear at h
    have hr : a.day.rank = b.day.rank := by omega
    have hd : a.day = b.day := Day.rank_inj hr
    have ht : a.time.raw = b.time.raw := by omega
    cases a with
    | mk ad at' =>
      cases b with
      | mk bd bt =>
        cases at'; cases bt
        simp_all

theorem Timestamp.lt_iff_linear {a b : Timestamp}
    (ha : a.time.raw < 86400) (hb : b.time.raw < 86400) :
    Timestamp.lt a b ↔ a.linear < b.linear := by
  unfold Timestamp.lt Timestamp.cmp Timestamp.linear
  split_ifs <;> simp_all <;> omega

theorem specProjection_eq {dep t : Timestamp}
    (hd : dep.time.raw < 86400) (ht : t.time.raw < 86400) :
    specProjection dep t =
      if dep.linear ≤ t.linear then t.linear - dep.linear
      else t.linear + WEEK - dep.linear := by
  have h1 := Timestamp.linear_lt_WEEK hd
  have h2 := Timestamp.linear_lt_WEEK ht
  unfold specProjection
  split_ifs with h
  · have : t.linear + WEEK - dep.linear = (t.linear - dep.linear) + WEEK := by
      omega
    rw [this, Nat.add_mod_right, Nat.mod_eq_of_lt]
    omega
  · rw [Nat.mod_eq_of_lt]
    omega

theorem ord_eq_lt_iff : (Ordering.eq = Ordering.lt) ↔ False := by simp

theorem ord_gt_lt_iff : (Ordering.gt = Ordering.lt) ↔ False := by simp

theorem ord_lt_lt_iff : (Ordering.lt = Ordering.lt) ↔ True := by simp

theorem ord_gt_gt_iff : (Ordering.gt = Ordering.gt) ↔ True := by simp

theorem ord_lt_gt_iff : (Ordering.lt = Ordering.gt) ↔ False := by simp

theorem ord_eq_gt_iff : (Ordering.eq = Ordering.gt) ↔ False := by simp

theorem compare_eq_iff (a b dep : Timestamp) :
    Timestamp.compare_using_departure a b dep = Ordering.eq ↔ a = b := by
  unfold Timestamp.compare_using_departure
  split_ifs <;> simp_all

theorem compare_lt_iff {a b dep : Timestamp}
    (ha : a.time.raw < 86400) (hb : b.time.raw < 86400)
    (hdep : dep.time.raw < 86400) :
    Timestamp.compare_using_departure a b dep = Ordering.lt ↔
      a ≠ b ∧ specProjection dep a < specProjection dep b := by
  have hla := Timestamp.linear_lt_WEEK ha
  have hlb := Timestamp.linear_lt_WEEK hb
  have hld := Timestamp.linear_lt_WEEK hdep
  have hW : WEEK = 604800 := rfl
  have eab := Timestamp.eq_iff_linear ha hb
  have ead := Timestamp.eq_iff_linear ha hdep
  have ebd := Timestamp.eq_iff_linear hb hdep
  have lab := Timestamp.lt_iff_linear ha hb
  have lad := Timestamp.lt_iff_linear ha hdep
  have lbd := Timestamp.lt_iff_linear hb hdep
  have lda := Timestamp.lt_iff_linear hdep ha
  rw [specProjection_eq hdep ha, specProjection_eq hdep hb]
  unfold Timestamp.compare_using_departure
  split_ifs <;>
    simp only [ne_eq, eab, ead, ebd, lab, lad, lbd, lda, ord_eq_lt_iff,
      ord_gt_lt_iff, ord_lt_lt_iff, true_iff, false_iff, iff_true,
      iff_false] at * <;>
    omega

theorem compare_self (x d : Timestamp) :
    Timestamp.compare_using_departure x x d = Ordering.eq := by
  unfold Timestamp.compare_using_departure
  rw [if_pos rfl]

theorem specProjection_inj {a b dep : Timestamp}
    (ha : a.time.raw < 86400) (hb : b.time.raw < 86400)
    (hdep : dep.time.raw < 86400)
    (h : specProjection dep a = specProjection dep b) : a = b := by
  have hla := Timestamp.linear_lt_WEEK ha
  have hlb := Timestamp.linear_lt_WEEK hb
  have hld := Timestamp.linear_lt_WEEK hdep
  have hW : WEEK = 604800 := rfl
  rw [specProjection_eq hdep ha, specProjection_eq hdep hb] at h
  rw [Timestamp.eq_iff_linear ha hb]
  split_ifs at h <;> omega

/-- C4 (confirmed): for calendar timestamps (times within one day),
`compare_using_departure` returns `eq` iff the arguments are equal, and
otherwise returns `lt` exactly when the first argument projects earlier on
the week unrolled from the departure (`(a − dep) mod 7 days`), including the
two concrete examples from the spec and reflexivity. -/
theorem c4_compare_using_departure_correct
    (a b dep : Timestamp)
    (ha : a.time.raw < 86400) (hb : b.time.raw < 86400)
    (hdep : dep.time.raw < 86400) :
    (Timestamp.compare_using_departure a b dep = Ordering.eq ↔ a = b) ∧
    (Timestamp.compare_using_departure a b dep = Ordering.lt ↔
      a ≠ b ∧ specProjection dep a < specProjection dep b) ∧
    Timestamp.compare_using_departure (tsOf .monday 12 0) (tsOf .sunday 9 0)
      (tsOf .monday 10 0) = Ordering.lt ∧
    Timestamp.compare_using_departure (tsOf .tuesday 9 0) (tsOf .monday 11 0)
      (tsOf .monday 10 0) = Ordering.gt ∧
    (∀ x d : Timestamp, Timestamp.compare_using_departure x x d =
      Ordering.eq) :=
  ⟨compare_eq_iff a b dep, compare_lt_iff ha hb hdep, by decide, by decide,
   compare_self⟩

/-- Witness for C4 at the spec's own first example. -/
theorem c4_compare_using_departure_correct_witness :
    (tsOf .monday 12 0).time.raw < 86400 ∧
    (Timestamp.compare_using_departure (tsOf .monday 12 0) (tsOf .sunday 9 0)
      (tsOf .monday 10 0) = Ordering.eq ↔ tsOf .monday 12 0 = tsOf .sunday 9 0) :=
  ⟨by decide,
   (c4_compare_using_departure_correct (tsOf .monday 12 0) (tsOf .sunday 9 0)
     (tsOf .monday 10 0) (by decide) (by decide) (by decide)).1⟩

theorem ordering_ne_gt_iff (o : Ordering) :
    o ≠ Ordering.gt ↔ o = Ordering.eq ∨ o = Ordering.lt := by
  cases o <;> simp

/-- C5 (counterexample): at `a = (Mon,10:00)`, `b = (Tue,10:00)` — where
`isFollowedBy(a, b)` is `true`, as the claim's own example also states —
the claimed equivalence with `compareUsingDeparture(b, a, a + 2 days) ≠
Greater` fails, whether `a + 2 days` keeps the time of day `(Wed,10:00)` or
means midnight `(Wed,00:00)`: both comparisons return `Greater`. -/
theorem c5_is_followed_by_claim_false :
    ¬ ((tsOf .monday 10 0).is_followed_by (tsOf .tuesday 10 0) = true ↔
      Timestamp.compare_using_departure (tsOf .tuesday 10 0)
        (tsOf .monday 10 0) (tsOf .wednesday 10 0) ≠ Ordering.gt) ∧
    ¬ ((tsOf .monday 10 0).is_followed_by (tsOf .tuesday 10 0) = true ↔
      Timestamp.compare_using_departure (tsOf .tuesday 10 0)
        (tsOf .monday 10 0) (tsOf .wednesday 0 0) ≠ Ordering.gt) := by
  decide

/-- C5 (amended): `isFollowedBy(a, b)` holds iff
`compareUsingDeparture(a, b, dep) ≠ Greater` — with the arguments in this
order, not swapped — where `dep` is midnight of the day two days after `a`'s
day; equivalently (for calendar timestamps), iff `b` projects no earlier
than `a` on the week unrolled from that reference, i.e. `b` is at most
roughly two days after `a` on the weekly cycle. The spec's two examples
hold. -/
theorem c5_is_followed_by_amended
    (a b : Timestamp)
    (ha : a.time.raw < 86400) (hb : b.time.raw < 86400) :
    (a.is_followed_by b = true ↔
      Timestamp.compare_using_departure a b
        ⟨Day.twoAhead a.day, DayTime.new 0 0⟩ ≠ Ordering.gt) ∧
    (a.is_followed_by b = true ↔
      specProjection ⟨Day.twoAhead a.day, DayTime.new 0 0⟩ a ≤
        specProjection ⟨Day.twoAhead a.day, DayTime.new 0 0⟩ b) ∧
    (tsOf .monday 10 0).is_followed_by (tsOf .tuesday 10 0) = true ∧
    (tsOf .monday 10 0).is_followed_by (tsOf .thursday 10 0) = false := by
  have hfirst : a.is_followed_by b = true ↔
      Timestamp.compare_using_departure a b
        ⟨Day.twoAhead a.day, DayTime.new 0 0⟩ ≠ Ordering.gt := by
    unfold Timestamp.is_followed_by
    show (if Timestamp.compare_using_departure a b
        ⟨Day.twoAhead a.day, DayTime.new 0 0⟩ = Ordering.gt then false
      else true) = true ↔ _
    split_ifs with h <;> simp [h]
  refine ⟨hfirst, ?_, by decide, by decide⟩
  have hdep : (Timestamp.mk (Day.twoAhead a.day) (DayTime.new 0 0)).time.raw
      < 86400 := by
    simp [DayTime.new]
  rw [hfirst, ordering_ne_gt_iff, compare_eq_iff, compare_lt_iff ha hb hdep]
  constructor
  · rintro (rfl | ⟨-, hlt⟩)
    · exact Nat.le_refl _
    · exact Nat.le_of_lt hlt
  · intro hle
    rcases Nat.eq_or_lt_of_le hle with heq | hlt
    · exact Or.inl (specProjection_inj ha hb hdep heq)
    · exact Or.inr ⟨fun h => by rw [h] at hlt; omega, hlt⟩

/-- Witness for the amended C5 at the spec's first example. -/
theorem c5_is_followed_by_amended_witness :
    (tsOf .monday 10 0).time.raw < 86400 ∧
    ((tsOf .monday 10 0).is_followed_by (tsOf .tuesday 10 0) = true ↔
      Timestamp.compare_using_departure (tsOf .monday 10 0)
        (tsOf .tuesday 10 0)
        ⟨Day.twoAhead (tsOf .monday 10 0).day, DayTime.new 0 0⟩ ≠
          Ordering.gt) :=
  ⟨by decide,
   (c5_is_followed_by_amended (tsOf .monday 10 0) (tsOf .tuesday 10 0)
     (by decide) (by decide)).1⟩

/-- `model::TransportType`. -/
inductive TransportType
  | trolley
  | bus
  | express
  | nightBus
deriving DecidableEq

/-- `model::Point`: an opaque geographic coordinate.  The `f64` latitude and
longitude only feed the haversine `distance`, which this embedding abstracts
as an explicit `Point → Point → Rat` argument, so points are tokens. -/
structure Point where
  id : Nat
deriving DecidableEq

/-- `model::Entry` of a `Durations` table (`from`/`to` are Lean keywords, so
the fields are `fromTime`/`toTime`). -/
structure Entry where
  fromTime : DayTime
  toTime : DayTime
  time : Nat
deriving DecidableEq

/-- `model::Durations`. -/
structure Durations where
  entries : List Entry
deriving DecidableEq

/-- `model::Departure`. -/
inductive Departure
  | exact : DayTime → Departure
  | periodic : DayTime → DayTime → Departure
deriving DecidableEq

/-- `model::Timetable` (`days` is a `u8` bitmask, embedded as `Nat`). -/
structure Timetable where
  days : Nat
  departures : List Departure
  durations : List Durations
deriving DecidableEq

/-- `model::Track`. -/
structure Track where
  name : String
  stops : List String
  timetables : List Timetable
deriving DecidableEq

/-- `model::Schedule`. -/
structure Schedule where
  id : String
  name : String
  long_name : String
  tracks : List Track
  transport_type : TransportType
deriving DecidableEq

/-- `model::Stop` (the input stop record; the search keeps its own `Stop`). -/
structure MStop where
  id : String
  name : String
  loc : Point
deriving DecidableEq

/-- `Timetable::works_on_day`.  Faithful to the source, which computes
`(self.days | flag) != 0` — bitwise OR, not AND. -/
def Timetable.works_on_day (tt : Timetable) (day : Day) : Bool :=
  let flag := 1 <<< day.index
  decide ((tt.days ||| flag) ≠ 0)

/-- `Timetable::find_stop_time`; the out-of-range index and the
`panic!("Cannot find stop time")` are modelled as `none`. -/
def Timetable.find_stop_time (tt : Timetable) (index : Nat) (dep : DayTime) :
    Option DayTime :=
  match tt.durations[index]? with
  | none => none
  | some durations =>
    match durations.entries.find?
        (fun entry => decide (entry.fromTime.raw ≤ dep.raw) &&
          decide (dep.raw < entry.toTime.raw)) with
    | none => none
    | some entry => some ⟨dep.raw + entry.time⟩

/-- `search::StopRoute`. -/
structure StopRoute where
  bus : String
  typ : TransportType
  next_stop : String
  departure : Timestamp
  arrival : Timestamp
  duration : Nat
deriving DecidableEq

/-- `search::Stop`. -/
structure Stop where
  name : String
  loc : Point
  routes : List StopRoute
deriving DecidableEq

/-- The `HashMap<String, Stop>` of the searcher, as an association list;
lookups take the first matching key and iteration follows list order (the
hash map's iteration order is arbitrary, and no claim depends on it). -/
abbrev StopMap : Type := List (String × Stop)

/-- `search::Searcher`. -/
structure Searcher where
  stops : StopMap
deriving DecidableEq

/-- HashMap insert used by `Searcher::new`'s `collect`: replace the value of
an existing key, else append. -/
def insertStop : StopMap → String → Stop → StopMap
  | [], id, stop => [(id, stop)]
  | (k, v) :: rest, id, stop =>
    if k = id then (k, stop) :: rest else (k, v) :: insertStop rest id stop

/-- First-match lookup in the stop map (`HashMap::get` / `Index`). -/
def lookupStop : StopMap → String → Option Stop
  | [], _ => none
  | (k, v) :: rest, id => if k = id then some v else lookupStop rest id

/-- `HashMap::get_mut`: update the value at an existing key; `none` when the
key is missing (the call site's `expect` panic). -/
def modifyStop : StopMap → String → (Stop → Stop) → Option StopMap
  | [], _, _ => none
  | (k, v) :: rest, id, f =>
    if k = id then some ((k, f v) :: rest)
    else
      match modifyStop rest id f with
      | none => none
      | some rest' => some ((k, v) :: rest')

/-- Routes pushed for one departure entry of a timetable, for the adjacent
stop pair at indices `ai`, `bi` (`Searcher::add_track`, innermost loop).
Periodic departures are skipped; `checked_sub` underflow is `none`. -/
def depRoutes (name : String) (typ : TransportType) (b : String) (day : Day)
    (tt : Timetable) (ai bi : Nat) : List Departure → Option (List StopRoute)
  | [] => some []
  | dep :: deps =>
    match dep with
    | .periodic _ _ => depRoutes name typ b day tt ai bi deps
    | .exact time =>
      match tt.find_stop_time ai time, tt.find_stop_time bi time with
      | some stop_time, some next_stop_time =>
        if stop_time.raw ≤ next_stop_time.raw then
          match depRoutes name typ b day tt ai bi deps with
          | none => none
          | some rest =>
            some ({ bus := name, typ := typ, next_stop := b,
                    departure := ⟨day, stop_time⟩,
                    arrival := ⟨day, next_stop_time⟩,
                    duration := next_stop_time.raw - stop_time.raw } :: rest)
        else none
      | _, _ => none

/-- Routes pushed for one day over all timetables (`Searcher::add_track`,
middle loop, including the `works_on_day` filter). -/
def ttRoutes (name : String) (typ : TransportType) (b : String) (day : Day)
    (ai bi : Nat) : List Timetable → Option (List StopRoute)
  | [] => some []
  | tt :: tts =>
    if tt.works_on_day day then
      match depRoutes name typ b day tt ai bi tt.departures with
      | none => none
      | some rs =>
        match ttRoutes name typ b day ai bi tts with
        | none => none
        | some rest => some (rs ++ rest)
    else ttRoutes name typ b day ai bi tts

/-- Routes pushed for an adjacent stop pair over all seven days
(`Searcher::add_track`, outer `for &day in DAYS` loop). -/
def dayRoutes (name : String) (typ : TransportType) (track : Track)
    (ai bi : Nat) (b : String) : List Day → Option (List StopRoute)
  | [] => some []
  | day :: days =>
    match ttRoutes name typ b day ai bi track.timetables with
    | none => none
    | some rs =>
      match dayRoutes name typ track ai bi b days with
      | none => none
      | some rest => some (rs ++ rest)

/-- All routes `Searcher::add_track` pushes onto the stop at index `ai` for
the adjacent pair `(ai, a) (bi, b)`. -/
def pairRoutes (name : String) (typ : TransportType) (track : Track)
    (ai bi : Nat) (b : String) : Option (List StopRoute) :=
  dayRoutes name typ track ai bi b DAYS

/-- `Searcher::add_track`, iterating `tuple_windows` over the enumerated
stops; a missing stop key is the `expect("schedule refers to non-existing
stop")` panic. -/
def addTrackPairs (name : String) (typ : TransportType) (track : Track) :
    StopMap → List ((Nat × String) × (Nat × String)) → Option StopMap
  | stops, [] => some stops
  | stops, ((ai, a), (bi, b)) :: rest =>
    match pairRoutes name typ track ai bi b with
    | none => none
    | some rs =>
      match modifyStop stops a
          (fun stop => { stop with routes := stop.routes ++ rs }) with
      | none => none
      | some stops' => addTrackPairs name typ track stops' rest

/-- The `(ai, a), (bi, b)` pairs of `track.stops.iter().enumerate()
.tuple_windows()`. -/
def adjacentPairs (stops : List String) :
    List ((Nat × String) × (Nat × String)) :=
  stops.enum.zip stops.enum.tail

/-- `Searcher::add_track`. -/
def addTrack (stops : StopMap) (name : String) (typ : TransportType)
    (track : Track) : Option StopMap :=
  addTrackPairs name typ track stops (adjacentPairs track.stops)

/-- `Searcher::add_schedule`. -/
def addSchedule (stops : StopMap) (schedule : Schedule) : Option StopMap :=
  schedule.tracks.foldlM
    (fun acc track => addTrack acc schedule.name schedule.transport_type track)
    stops

/-- Insert a route into an already sorted list, before the first strictly
later departure (stable). -/
def insertRoute (route : StopRoute) : List StopRoute → List StopRoute
  | [] => [route]
  | r :: rs =>
    if Timestamp.cmp route.departure r.departure = Ordering.lt then
      route :: r :: rs
    else r :: insertRoute route rs

/-- The stable `sort_by_key(|route| route.departure)` of `fix_stops`,
embedded as insertion sort (any stable sort by the same key is
observationally equal for the properties claimed). -/
def sortRoutes : List StopRoute → List StopRoute
  | [] => []
  | r :: rs => insertRoute r (sortRoutes rs)

/-- `Searcher::fix_stops` (the debug log is dropped). -/
def fix_stops (stops : StopMap) : StopMap :=
  stops.map (fun p => (p.1, { p.2 with routes := sortRoutes p.2.routes }))

/-- The initial stop map of `Searcher::new` (the `collect` of the input
stops, with empty route lists). -/
def initialStopMap (stops : List MStop) : StopMap :=
  stops.foldl
    (fun acc s =>
      insertStop acc s.id { name := s.name, loc := s.loc, routes := [] })
    []

/-- `Searcher::new`. -/
def Searcher.new (stops : List MStop) (schedules : List Schedule) :
    Option Searcher :=
  match schedules.foldlM addSchedule (initialStopMap stops) with
  | none => none
  | some map => some ⟨fix_stops map⟩

/-- Timetable and track exercising the `works_on_day` day mask: the mask is
`0`, so no day bit is set. -/
def c3Timetable : Timetable :=
  { days := 0,
    departures := [.exact ⟨600⟩],
    durations := [⟨[⟨⟨0⟩, ⟨86400⟩, 0⟩]⟩, ⟨[⟨⟨0⟩, ⟨86400⟩, 100⟩]⟩] }

def c3Track : Track :=
  { name := "T", stops := ["A", "B"], timetables := [c3Timetable] }

def c3Route (d : Day) : StopRoute :=
  { bus := "L1", typ := .bus, next_stop := "B",
    departure := ⟨d, ⟨600⟩⟩, arrival := ⟨d, ⟨700⟩⟩, duration := 100 }

/-- C3 (code bug): `works_on_day` computes `(days | flag) != 0` — bitwise OR
instead of the intended AND — so it accepts every day.  With a days mask of
`0`, whose Monday bit `1 << day.index` is clearly not set, the timetable is
still reported as working on Monday, and `add_track` generates a `StopRoute`
edge for Monday (indeed for all seven days), contradicting the claimed
"edge generated iff the day's bit is set in the mask". -/
theorem c3_works_on_day_bug :
    c3Timetable.days &&& (1 <<< Day.index .monday) = 0 ∧
    c3Timetable.works_on_day .monday = true ∧
    pairRoutes "L1" .bus c3Track 0 1 "B" =
      some [c3Route .monday, c3Route .tuesday, c3Route .wednesday,
        c3Route .thursday, c3Route .friday, c3Route .saturday,
        c3Route .sunday] := by
  refine ⟨by decide, by decide, ?_⟩
  decide

/-- The within-day invariant of a generated `StopRoute` (C6's per-edge
property). -/
def RouteOK (r : StopRoute) : Prop :=
  r.arrival.day = r.departure.day ∧
  r.departure.time.raw ≤ r.arrival.time.raw ∧
  r.duration = r.arrival.time.raw - r.departure.time.raw

/-- Non-decreasing-departure order used to state sortedness (the `≤` of the
derived `Ord` on the departure key). -/
def routeLe (r1 r2 : StopRoute) : Prop :=
  Timestamp.cmp r1.departure r2.departure ≠ Ordering.gt

theorem cmp_lt_iff (a b : Timestamp) :
    Timestamp.cmp a b = Ordering.lt ↔
      a.day.rank < b.day.rank ∨
        (a.day.rank = b.day.rank ∧ a.time.raw < b.time.raw) := by
  unfold Timestamp.cmp
  split_ifs <;> simp_all <;> omega

theorem cmp_ne_gt_iff (a b : Timestamp) :
    Timestamp.cmp a b ≠ Ordering.gt ↔
      a.day.rank < b.day.rank ∨
        (a.day.rank = b.day.rank ∧ a.time.raw ≤ b.time.raw) := by
  unfold Timestamp.cmp
  split_ifs <;> simp_all <;> omega

theorem routeLe_of_not_lt {x y : StopRoute}
    (h : ¬ Timestamp.cmp x.departure y.departure = Ordering.lt) :
    routeLe y x := by
  unfold routeLe
  rw [cmp_lt_iff] at h
  rw [cmp_ne_gt_iff]
  omega

theorem routeLe_of_lt_le {x y z : StopRoute}
    (h1 : Timestamp.cmp x.departure y.departure = Ordering.lt)
    (h2 : routeLe y z) : routeLe x z := by
  unfold routeLe at *
  rw [cmp_lt_iff] at h1
  rw [cmp_ne_gt_iff] at *
  omega

theorem mem_insertRoute {r x : StopRoute} {l : List StopRoute} :
    r ∈ insertRoute x l ↔ r = x ∨ r ∈ l := by
  induction l with
  | nil => simp [insertRoute]
  | cons y ys ih =>
    unfold insertRoute
    split_ifs <;> simp_all <;> tauto

theorem mem_sortRoutes {r : StopRoute} {l : List StopRoute} :
    r ∈ sortRoutes l ↔ r ∈ l := by
  induction l with
  | nil => simp [sortRoutes]
  | cons y ys ih => simp [sortRoutes, mem_insertRoute, ih]

theorem pairwise_insertRoute {x : StopRoute} {l : List StopRoute}
    (h : List.Pairwise routeLe l) :
    List.Pairwise routeLe (insertRoute x l) := by
  induction l with
  | nil => simp [insertRoute]
  | cons y ys ih =>
    unfold insertRoute
    rcases h with _ | ⟨hy, hys⟩
    split_ifs with hc
    · refine List.Pairwise.cons ?_ (List.Pairwise.cons hy hys)
      intro z hz
      rcases List.mem_cons.mp hz with rfl | hz
      · unfold routeLe; rw [hc]; simp
      · exact routeLe_of_lt_le hc (hy z hz)
    · refine List.Pairwise.cons ?_ (ih hys)
      intro z hz
      rcases mem_insertRoute.mp hz with rfl | hz
      · exact routeLe_of_not_lt hc
      · exact hy z hz

theorem pairwise_sortRoutes (l : List StopRoute) :
    List.Pairwise routeLe (sortRoutes l) := by
  induction l with
  | nil => simp [sortRoutes]
  | cons y ys ih => exact pairwise_insertRoute ih

theorem depRoutes_ok {name typ b day tt ai bi} :
    ∀ {deps rs}, depRoutes name typ b day tt ai bi deps = some rs →
      ∀ r ∈ rs, RouteOK r := by
  intro deps
  induction deps with
  | nil => intro rs h r hr; cases h; cases hr
  | cons d ds ih =>
    intro rs h r hr
    cases d with
    | periodic t1 t2 =>
      simp only [depRoutes] at h
      exact ih h r hr
    | exact time =>
      simp only [depRoutes] at h
      split at h
      · rename_i stop_time next_stop_time hst hnst
        split_ifs at h with hle
        · split at h
          · cases h
          · rename_i rest hrec
            cases h
            rcases List.mem_cons.mp hr with rfl | hr
            · exact ⟨rfl, hle, rfl⟩
            · exact ih hrec r hr
      · cases h

theorem ttRoutes_ok {name typ b day ai bi} :
    ∀ {tts rs}, ttRoutes name typ b day ai bi tts = some rs →
      ∀ r ∈ rs, RouteOK r := by
  intro tts
  induction tts with
  | nil => intro rs h r hr; cases h; cases hr
  | cons tt rest ih =>
    intro rs h r hr
    simp only [ttRoutes] at h
    split_ifs at h with hw
    · split at h
      · cases h
      · rename_i rs1 hd
        split at h
        · cases h
        · rename_i rs2 hrec
          cases h
          rcases List.mem_append.mp hr with hr | hr
          · exact depRoutes_ok hd r hr
          · exact ih hrec r hr
    · exact ih h r hr

theorem dayRoutes_ok {name typ track ai bi b} :
    ∀ {days rs}, dayRoutes name typ track ai bi b days = some rs →
      ∀ r ∈ rs, RouteOK r := by
  intro days
  induction days with
  | nil => intro rs h r hr; cases h; cases hr
  | cons day rest ih =>
    intro rs h r hr
    simp only [dayRoutes] at h
    split at h
    · cases h
    · rename_i rs1 htt
      split at h
      · cases h
      · rename_i rs2 hrec
        cases h
        rcases List.mem_append.mp hr with hr | hr
        · exact ttRoutes_ok htt r hr
        · exact ih hrec r hr

/-- Every edge in the map satisfies `RouteOK`. -/
def StopsOK (stops : StopMap) : Prop :=
  ∀ p ∈ stops, ∀ r ∈ p.2.routes, RouteOK r

theorem insertStop_ok {stops : StopMap} {id : String} {stop : Stop}
    (hs : StopsOK stops) (hstop : ∀ r ∈ stop.routes, RouteOK r) :
    StopsOK (insertStop stops id stop) := by
  induction stops with
  | nil =>
    intro p hp
    simp only [insertStop, List.mem_singleton] at hp
    subst hp
    exact hstop
  | cons kv rest ih =>
    obtain ⟨k, v⟩ := kv
    intro p hp
    simp only [insertStop] at hp
    split_ifs at hp with hk
    · rcases List.mem_cons.mp hp with rfl | hp
      · exact hstop
      · exact hs _ (List.mem_cons_of_mem _ hp)
    · rcases List.mem_cons.mp hp with rfl | hp
      · exact hs _ (List.mem_cons_self _ _)
      · exact ih (fun q hq => hs q (List.mem_cons_of_mem _ hq)) _ hp

theorem modifyStop_ok {stops stops' : StopMap} {id : String}
    {f : Stop → Stop} (hs : StopsOK stops)
    (hf : ∀ stop, (∀ r ∈ stop.routes, RouteOK r) →
      ∀ r ∈ (f stop).routes, RouteOK r)
    (h : modifyStop stops id f = some stops') : StopsOK stops' := by
  induction stops generalizing stops' with
  | nil => cases h
  | cons kv rest ih =>
    obtain ⟨k, v⟩ := kv
    simp only [modifyStop] at h
    split_ifs at h with hk
    · cases h
      intro p hp
      rcases List.mem_cons.mp hp with rfl | hp
      · exact hf v (hs _ (List.mem_cons_self _ _))
      · exact hs _ (List.mem_cons_of_mem _ hp)
    · split at h
      · cases h
      · rename_i rest' hrec
        cases h
        intro p hp
        rcases List.mem_cons.mp hp with rfl | hp
        · exact hs _ (List.mem_cons_self _ _)
        · exact ih (fun q hq => hs q (List.mem_cons_of_mem _ hq)) hrec p hp

theorem addTrackPairs_ok {name typ track} :
    ∀ {pairs stops stops'}, StopsOK stops →
      addTrackPairs name typ track stops pairs = some stops' →
      StopsOK stops' := by
  intro pairs
  induction pairs with
  | nil => intro stops stops' hs h; cases h; exact hs
  | cons pr rest ih =>
    intro stops stops' hs h
    obtain ⟨⟨ai, a⟩, bi, b⟩ := pr
    simp only [addTrackPairs] at h
    split at h
    · cases h
    · rename_i rs hpr
      split at h
      · cases h
      · rename_i stops1 hm
        refine ih ?_ h
        refine modifyStop_ok hs ?_ hm
        intro stop hstop r hr
        rcases List.mem_append.mp hr with hr | hr
        · exact hstop r hr
        · exact dayRoutes_ok hpr r hr

theorem addTrack_ok {stops stops' : StopMap} {name typ track}
    (hs : StopsOK stops) (h : addTrack stops name typ track = some stops') :
    StopsOK stops' :=
  addTrackPairs_ok hs h

theorem foldlM_option_inv {α β : Type} (P : β → Prop) (f : β → α → Option β)
    (hf : ∀ b a b', P b → f b a = some b' → P b') :
    ∀ (l : List α) (b b' : β), P b → l.foldlM f b = some b' → P b' := by
  intro l
  induction l with
  | nil => intro b b' hb h; cases h; exact hb
  | cons a rest ih =>
    intro b b' hb h
    simp only [List.foldlM] at h
    cases hfa : f b a with
    | none => rw [hfa] at h; cases h
    | some b1 =>
      rw [hfa] at h
      exact ih b1 b' (hf b a b1 hb hfa) h

theorem addSchedule_ok {stops stops' : StopMap} {schedule : Schedule}
    (hs : StopsOK stops) (h : addSchedule stops schedule = some stops') :
    StopsOK stops' := by
  unfold addSchedule at h
  exact foldlM_option_inv StopsOK _
    (fun b a b' hb hf => addTrack_ok hb hf) schedule.tracks stops stops' hs h

/-- C6 (confirmed): after a successful `Searcher::new`, every stop's route
list is sorted non-decreasingly by departure timestamp, and every edge has
its arrival on the same day at or after its departure, with `duration`
exactly the within-day time difference. -/
theorem c6_graph_invariant (stops : List MStop) (schedules : List Schedule)
    (s : Searcher) (h : Searcher.new stops schedules = some s) :
    ∀ p ∈ s.stops, List.Pairwise routeLe p.2.routes ∧
      ∀ r ∈ p.2.routes, r.arrival.day = r.departure.day ∧
        r.departure.time.raw ≤ r.arrival.time.raw ∧
        r.duration = r.arrival.time.raw - r.departure.time.raw := by
  unfold Searcher.new at h
  have hinit : StopsOK (initialStopMap stops) := by
    have hgen : ∀ (l : List MStop) (acc : StopMap), StopsOK acc →
        StopsOK (l.foldl (fun acc s => insertStop acc s.id
          { name := s.name, loc := s.loc, routes := [] }) acc) := by
      intro l
      induction l with
      | nil => intro acc hacc; exact hacc
      | cons m rest ih =>
        intro acc hacc
        exact ih _ (insertStop_ok hacc (by intro r hr; cases hr))
    exact hgen stops [] (by intro p hp; cases hp)
  split at h
  · cases h
  · rename_i m hfold
    cases h
    have hok : StopsOK m :=
      foldlM_option_inv StopsOK _
        (fun b a b' hb hf => addSchedule_ok hb hf) schedules _ m hinit hfold
    intro p hp
    simp only [fix_stops, List.mem_map] at hp
    rcases hp with ⟨q, hq, rfl⟩
    refine ⟨pairwise_sortRoutes _, ?_⟩
    intro r hr
    exact hok q hq r (mem_sortRoutes.mp hr)

/-- Concrete graph-build input used by the C6 witness. -/
def exStops : List MStop := [⟨"A", "StopA", ⟨0⟩⟩, ⟨"B", "StopB", ⟨1⟩⟩]

def exTimetable : Timetable :=
  { days := 127,
    departures := [.exact ⟨600⟩],
    durations := [⟨[⟨⟨0⟩, ⟨86400⟩, 0⟩]⟩, ⟨[⟨⟨0⟩, ⟨86400⟩, 100⟩]⟩] }

def exSchedule : Schedule :=
  { id := "S1", name := "L1", long_name := "Line 1",
    tracks := [⟨"T1", ["A", "B"], [exTimetable]⟩],
    transport_type := .bus }

def exRoute (d : Day) : StopRoute :=
  { bus := "L1", typ := .bus, next_stop := "B",
    departure := ⟨d, ⟨600⟩⟩, arrival := ⟨d, ⟨700⟩⟩, duration := 100 }

def exSearcher : Searcher :=
  ⟨[("A", ⟨"StopA", ⟨0⟩,
      [exRoute .monday, exRoute .tuesday, exRoute .wednesday,
       exRoute .thursday, exRoute .friday, exRoute .saturday,
       exRoute .sunday]⟩),
    ("B", ⟨"StopB", ⟨1⟩, []⟩)]⟩

/-- Witness for C6 on a concrete two-stop, one-line build. -/
theorem c6_graph_invariant_witness :
    Searcher.new exStops [exSchedule] = some exSearcher ∧
    (∀ p ∈ exSearcher.stops, List.Pairwise routeLe p.2.routes ∧
      ∀ r ∈ p.2.routes, r.arrival.day = r.departure.day ∧
        r.departure.time.raw ≤ r.arrival.time.raw ∧
        r.duration = r.arrival.time.raw - r.departure.time.raw) :=
  ⟨by decide, c6_graph_invariant exStops [exSchedule] exSearcher (by decide)⟩

/-- `MAX_WALK_DISTANCE` (meters). -/
def MAX_WALK_DISTANCE : Rat := 500

/-- `TRANSFER_DELAY` (seconds). -/
def TRANSFER_DELAY : Nat := 3 * 60

/-- `TRANSFER_PENALTY` (seconds). -/
def TRANSFER_PENALTY : Nat := 2 * 60

/-- `search::walk_time`: `(distance / speed).ceil() as u64` with speed
`4.0 * 1000.0 / 3600.0` m/s.  On the abstracted rational distances the float
ceil-and-cast is exact; `Int.toNat` clamps negatives to zero exactly as
Rust's saturating float-to-integer cast does. -/
def walk_time (distance : Rat) : Nat :=
  (⌈distance / (4 * 1000 / 3600 : Rat)⌉).toNat

/-- `model::NamedPoint`. -/
structure NamedPoint where
  loc : Point
  name : Option String
deriving DecidableEq

/-- `model::WalkSegment` (`from` is a Lean keyword: the field is `fromPt`). -/
structure WalkSegment where
  fromPt : NamedPoint
  toPt : NamedPoint
  start : DayTime
  duration : Nat
deriving DecidableEq

/-- `model::BusSegment`. -/
structure BusSegment where
  bus : String
  typ : TransportType
  from_stop : String
  to_stop : String
  start : DayTime
  duration : Nat
deriving DecidableEq

/-- `model::Segment`. -/
inductive Segment
  | walk : WalkSegment → Segment
  | bus : BusSegment → Segment
deriving DecidableEq

/-- `model::Route`. -/
structure Route where
  segments : List Segment
  departure_time : DayTime
  arrival_time : DayTime
deriving DecidableEq

/-- `search::StopInfo`. -/
structure StopInfo where
  walk_finish : Option Timestamp
  arrival : Timestamp
  transfers : Nat
  arriving_segment : Segment
  parent : Option String
deriving DecidableEq

/-- `search::HeapItem`. -/
structure HeapItem where
  departure : Timestamp
  arrival : Timestamp
  transfers : Nat
  stop : String
  parent : Option String
  segment : Segment
deriving DecidableEq

/-- `search::compare_points`.  Faithful to the source: the `departure`
parameter is accepted but never used, and the offset cost keys are compared
with the plain derived `(day, time)` order, not `compare_using_departure`. -/
def compare_points (departure : Timestamp) (first second : Timestamp × Nat) :
    Ordering :=
  Timestamp.cmp (first.1.offset (TRANSFER_PENALTY * first.2))
    (second.1.offset (TRANSFER_PENALTY * second.2))

/-- `Ord for HeapItem`: the reversed cost comparison, so the max-heap pops
the least-cost item. -/
def HeapItem.cmp (self other : HeapItem) : Ordering :=
  (compare_points self.departure (self.arrival, self.transfers)
    (other.arrival, other.transfers)).swap

/-- The `is_transfering` computation of the ride-expansion loop. -/
def isTransfering (seg : Segment) (reached_stop_at : Timestamp)
    (route : StopRoute) : Bool :=
  match seg with
  | .walk _ => true
  | .bus segment =>
    decide (segment.bus ≠ route.bus) || decide (reached_stop_at ≠ route.departure)

/-- One iteration of the ride-expansion loop of `find_route` ("check
outgoing bus routes"): the `HeapItem` pushed for `route`, if any. -/
def rideExpandItem (departure : Timestamp) (itemStop : String)
    (reached_stop_at : Timestamp) (itemTransfers : Nat) (seg : Segment)
    (route : StopRoute) : Option HeapItem :=
  if (if isTransfering seg reached_stop_at route then
        reached_stop_at.offset TRANSFER_DELAY
      else reached_stop_at).is_followed_by route.departure then
    some { departure := departure, arrival := route.arrival,
           transfers := itemTransfers +
             (if isTransfering seg reached_stop_at route then 1 else 0),
           stop := route.next_stop, parent := some itemStop,
           segment := .bus { bus := route.bus, typ := route.typ,
                             from_stop := itemStop,
                             to_stop := route.next_stop,
                             start := route.departure.time,
                             duration := route.duration } }
  else none

/-- The Walk `HeapItem`s that the walking-expansion block of `find_route`
("try to walk to nearby stops") constructs for a settled stop whose arriving
segment is a ride: one per stop of the map within `MAX_WALK_DISTANCE`.  The
source builds each `item` and then drops it — the block contains no
`queue.push(item)` — so none of these ever reaches the frontier. -/
def walkExpansionConstructed (stops : StopMap) (dist : Point → Point → Rat)
    (departure : Timestamp) (stopLoc : Point) (stopName : String)
    (itemStop : String) (reached_stop_at : Timestamp) (transfers : Nat) :
    List HeapItem :=
  stops.filterMap (fun p =>
    if dist stopLoc p.2.loc > MAX_WALK_DISTANCE then none
    else
      some { departure := departure,
             arrival := reached_stop_at.offset (walk_time (dist stopLoc p.2.loc)),
             transfers := transfers, stop := p.1, parent := some itemStop,
             segment := .walk { fromPt := ⟨stopLoc, some stopName⟩,
                                toPt := ⟨p.2.loc, some p.2.name⟩,
                                start := reached_stop_at.time,
                                duration := walk_time (dist stopLoc p.2.loc) } })

/-- First-match lookup in the settled map. -/
def lookupTimes : List (String × StopInfo) → String → Option StopInfo
  | [], _ => none
  | (k, v) :: rest, id => if k = id then some v else lookupTimes rest id

/-- Settling one popped `HeapItem` (the `find_route` main-loop body after
the already-settled check): records the `StopInfo` and appends the ride
pushes to the queue.  The walking-expansion block additionally computes
`walkExpansionConstructed` when the arriving segment is a ride, but since
the source never pushes those items they do not appear in the returned
queue.  `none` is the panicking `self.stops[item.stop]` index. -/
def settleStep (stops : StopMap) (dist : Point → Point → Rat)
    (departure : Timestamp) (to_ : Point) (times : List (String × StopInfo))
    (item : HeapItem) (queue : List HeapItem) :
    Option (List (String × StopInfo) × List HeapItem) :=
  match lookupStop stops item.stop with
  | none => none
  | some stop =>
    some (times ++ [(item.stop,
      { walk_finish :=
          if dist stop.loc to_ > MAX_WALK_DISTANCE then none
          else some (item.arrival.offset (walk_time (dist stop.loc to_))),
        arrival := item.arrival, transfers := item.transfers,
        arriving_segment := item.segment, parent := item.parent })],
      queue ++ stop.routes.filterMap
        (rideExpandItem departure item.stop item.arrival item.transfers
          item.segment))

/-- `BinaryHeap::pop` modelled on a list: remove a maximal element under
`HeapItem.cmp` (the first such in list order; the heap's order among equal
keys is unspecified and no claim depends on it). -/
def popMax : List HeapItem → Option (HeapItem × List HeapItem)
  | [] => none
  | x :: xs =>
    match popMax xs with
    | none => some (x, [])
    | some (m, rest) =>
      if HeapItem.cmp x m = Ordering.lt then some (m, x :: rest)
      else some (x, xs)

/-- Combined route count of the not-yet-settled stops (the potential future
ride pushes); used to bound the loop. -/
def routesOfUnsettled (stops : StopMap)
    (times : List (String × StopInfo)) : Nat :=
  ((stops.filter (fun p => (lookupTimes times p.1).isNone)).map
    (fun p => p.2.routes.length)).sum

/-- The `find_route` main loop.  The Rust loop terminates because every pop
either discards an already-settled item, shrinking the queue, or settles a
new stop, whose ride pushes are bounded by its route count; the explicit
fuel makes that measure syntactic, and `searchFuel` is proven sufficient
below.  `none` is a panic inside the loop. -/
def searchLoop (stops : StopMap) (dist : Point → Point → Rat)
    (departure : Timestamp) (to_ : Point) :
    Nat → List (String × StopInfo) → List HeapItem →
    Option (List (String × StopInfo))
  | 0, _, _ => none
  | fuel + 1, times, queue =>
    match popMax queue with
    | none => some times
    | some (item, queue') =>
      if (lookupTimes times item.stop).isSome then
        searchLoop stops dist departure to_ fuel times queue'
      else
        match settleStep stops dist departure to_ times item queue' with
        | none => none
        | some (times', queue'') =>
          searchLoop stops dist departure to_ fuel times' queue''

/-- Fuel sufficient to drain the queue (proved below). -/
def searchFuel (stops : StopMap) (times : List (String × StopInfo))
    (queue : List HeapItem) : Nat :=
  queue.length + routesOfUnsettled stops times + 1

/-- `Iterator::min_by` (keeps the last of equally-minimal elements). -/
def minBySel {α : Type} (cmp : α → α → Ordering) (l : List α) : Option α :=
  l.foldl (fun acc x =>
    match acc with
    | none => some x
    | some a => if cmp a x = Ordering.lt then some a else some x) none

/-- The candidates of the final selection: settled stops with a
`walk_finish`, carrying `(stop, walk_finish, transfers)` (`find_route`'s
`flat_map`). -/
def finalCandidates (times : List (String × StopInfo)) :
    List (String × Timestamp × Nat) :=
  times.filterMap (fun p =>
    match p.2.walk_finish with
    | none => none
    | some wf => some (p.1, wf, p.2.transfers))

/-- The `min_by(compare_points ...)` final selection of `find_route`. -/
def finalSelection (departure : Timestamp)
    (times : List (String × StopInfo)) : Option (String × Timestamp × Nat) :=
  minBySel
    (fun a b => compare_points departure (a.2.1, a.2.2) (b.2.1, b.2.2))
    (finalCandidates times)

/-- `times.remove(current)`; `none` is the panicking `unwrap`. -/
def removeEntry : List (String × StopInfo) → String →
    Option (StopInfo × List (String × StopInfo))
  | [], _ => none
  | (k, v) :: rest, id =>
    if k = id then some (v, rest)
    else
      match removeEntry rest id with
      | none => none
      | some (info, rest') => some (info, (k, v) :: rest')

/-- The backward reconstruction loop of `find_route`: follow parent links,
pushing each `arriving_segment`; at the root (no parent) compute the overall
departure time from the origin walk.  Each iteration removes one settled
entry, so `times.length` bounds the iterations and serves as fuel; `none`
is a panic (failed `unwrap` or missing stop). -/
def reconstructSegs (stops : StopMap) (dist : Point → Point → Rat)
    (from_ : Point) :
    Nat → List (String × StopInfo) → String → List Segment →
    Option (List Segment × DayTime)
  | 0, _, _, _ => none
  | fuel + 1, times, current, acc =>
    match removeEntry times current with
    | none => none
    | some (info, times') =>
      match info.parent with
      | some parent =>
        reconstructSegs stops dist from_ fuel times' parent
          (acc ++ [info.arriving_segment])
      | none =>
        match lookupStop stops current with
        | none => none
        | some stop =>
          some (acc ++ [info.arriving_segment],
            (info.arrival.neg_offset (walk_time (dist from_ stop.loc))).time)

/-- `Searcher::translate_stop_names` on one segment; `none` is a panicking
index on a missing stop id. -/
def translateSegment (stops : StopMap) : Segment → Option Segment
  | Segment.walk w => some (Segment.walk w)
  | Segment.bus b =>
    match lookupStop stops b.from_stop, lookupStop stops b.to_stop with
    | some f, some t =>
      some (Segment.bus { b with from_stop := f.name, to_stop := t.name })
    | _, _ => none

def translateSegments (stops : StopMap) : List Segment →
    Option (List Segment)
  | [] => some []
  | s :: rest =>
    match translateSegment stops s, translateSegments stops rest with
    | some s', some rest' => some (s' :: rest')
    | _, _ => none

/-- `Vec::dedup_by` on segments, `merge a b = some m` modelling the closure
returning `true` after mutating the earlier element `a` into `m`; the later
element is removed and `m` is compared against the next one. -/
def dedupFrom (merge : Segment → Segment → Option Segment) :
    Segment → List Segment → List Segment
  | a, [] => [a]
  | a, b :: rest =>
    match merge a b with
    | some m => dedupFrom merge m rest
    | none => a :: dedupFrom merge b rest

def dedupBySeg (merge : Segment → Segment → Option Segment) :
    List Segment → List Segment
  | [] => []
  | a :: rest => dedupFrom merge a rest

/-- The same-bus closure of the first `dedup_by` in `post_process_route`. -/
def mergeBusSeg : Segment → Segment → Option Segment
  | Segment.bus a, Segment.bus b =>
    if a.bus ≠ b.bus then none
    else if a.start.offset a.duration ≠ b.start then none
    else some (Segment.bus { a with duration := a.duration + b.duration,
                                    to_stop := b.to_stop })
  | _, _ => none

/-- The walk closure of the second `dedup_by` in `post_process_route`. -/
def mergeWalkSeg : Segment → Segment → Option Segment
  | Segment.walk a, Segment.walk b =>
    some (Segment.walk { a with duration := a.duration + b.duration,
                                toPt := b.toPt })
  | _, _ => none

/-- `Searcher::post_process_route` on the segment list: the bus pass, then
the walk pass. -/
def post_process_segments (segments : List Segment) : List Segment :=
  dedupBySeg mergeWalkSeg (dedupBySeg mergeBusSeg segments)

/-- The initialization loop of `find_route`: a Walk `HeapItem` per stop
within `MAX_WALK_DISTANCE` of the origin, with no parent and the origin as a
name-free starting point. -/
def initialItems (stops : StopMap) (dist : Point → Point → Rat)
    (from_ : Point) (departure : Timestamp) : List HeapItem :=
  stops.filterMap (fun p =>
    if dist from_ p.2.loc > MAX_WALK_DISTANCE then none
    else
      some { departure := departure,
             arrival := departure.offset (walk_time (dist from_ p.2.loc)),
             transfers := 0, stop := p.1, parent := none,
             segment := .walk { fromPt := ⟨from_, none⟩,
                                toPt := ⟨p.2.loc, some p.2.name⟩,
                                start := departure.time,
                                duration := walk_time (dist from_ p.2.loc) } })

/-- `Searcher::find_route`.  The outer `Option` separates a panic (`none`)
from a normal return; the inner `Option` is the function's own
`Option<Route>`. -/
def findRoute (searcher : Searcher) (dist : Point → Point → Rat)
    (from_ to_ : Point) (departure : Timestamp) : Option (Option Route) :=
  match searchLoop searcher.stops dist departure to_
      (searchFuel searcher.stops []
        (initialItems searcher.stops dist from_ departure))
      [] (initialItems searcher.stops dist from_ departure) with
  | none => none
  | some times =>
    match finalSelection departure times with
    | none => some none
    | some (final_stop, arrival_time, _transfers) =>
      match lookupStop searcher.stops final_stop,
          lookupTimes times final_stop with
      | some fstop, some finfo =>
        match reconstructSegs searcher.stops dist from_ times.length times
            final_stop
            [Segment.walk { fromPt := ⟨fstop.loc, some fstop.name⟩,
                            toPt := ⟨to_, none⟩,
                            start := finfo.arrival.time,
                            duration := walk_time (dist fstop.loc to_) }] with
        | none => none
        | some (segs, departure_time) =>
          match translateSegments searcher.stops segs.reverse with
          | none => none
          | some segs2 =>
            some (some { segments := post_process_segments segs2,
                         departure_time := departure_time,
                         arrival_time := arrival_time.time })
      | _, _ => none

/-- C2 (code bug): `compare_points` receives the query departure but never
uses it — the cost keys `arrival.offset(TRANSFER_PENALTY × transfers)` are
compared with the plain derived `(day, time)` lexicographic order, not the
cyclic `compare_using_departure` ordering relative to the departure.  With
departure (Mon,10:00), candidate (Mon,09:00) — which the cyclic order puts
almost a whole week away — beats candidate (Tue,09:00) (23 hours away):
`compare_points` answers `lt` where `compare_using_departure` on the same
cost keys answers `gt`.  Both the heap ordering and the final selection go
through `compare_points`, so both disagree with the claim. -/
theorem c2_compare_points_ignores_departure :
    compare_points (tsOf .monday 10 0) (tsOf .monday 9 0, 0)
      (tsOf .tuesday 9 0, 0) = Ordering.lt ∧
    Timestamp.compare_using_departure
      ((tsOf .monday 9 0).offset (TRANSFER_PENALTY * 0))
      ((tsOf .tuesday 9 0).offset (TRANSFER_PENALTY * 0))
      (tsOf .monday 10 0) = Ordering.gt ∧
    (∀ dep1 dep2 first second,
      compare_points dep1 first second = compare_points dep2 first second) :=
  ⟨by decide, by decide, fun _ _ _ _ => rfl⟩

/-- C7 (confirmed): in ride expansion, `is_transfering` holds iff the
arriving segment is a Walk, or a ride on a different bus, or a ride whose
arrival (the settled arrival time) differs from the route's departure;
`TRANSFER_DELAY` is 180 s and is added to the ready time exactly when
transferring; an item is pushed iff the effective ready time
`is_followed_by` the route's departure, and it carries the route's arrival,
a transfer count incremented exactly when transferring, the route's next
stop, and the settled stop as parent. -/
theorem c7_ride_expansion (departure : Timestamp) (itemStop : String)
    (reached : Timestamp) (transfers : Nat) (seg : Segment) (r : StopRoute) :
    (isTransfering seg reached r = true ↔
      (∃ w, seg = Segment.walk w) ∨
        ∃ b, seg = Segment.bus b ∧ (b.bus ≠ r.bus ∨ reached ≠ r.departure)) ∧
    TRANSFER_DELAY = 180 ∧
    ((∃ it, rideExpandItem departure itemStop reached transfers seg r = some it)
      ↔ ((if isTransfering seg reached r then reached.offset TRANSFER_DELAY
          else reached).is_followed_by r.departure) = true) ∧
    (∀ it, rideExpandItem departure itemStop reached transfers seg r = some it →
      it.arrival = r.arrival ∧
      it.transfers = transfers + (if isTransfering seg reached r then 1 else 0) ∧
      it.stop = r.next_stop ∧ it.parent = some itemStop) := by
  refine ⟨?_, rfl, ?_, ?_⟩
  · cases seg with
    | walk w => simp [isTransfering]
    | bus b => simp [isTransfering]
  · unfold rideExpandItem
    split_ifs with h1 h2 h3
    · simp [h2]
    · simp [h2]
    · simp [h3]
    · simp [h3]
  · intro it h
    unfold rideExpandItem at h
    split_ifs at h with h1 h2 h3
    · cases h; exact ⟨rfl, by simp [h1], rfl, rfl⟩
    · cases h; exact ⟨rfl, by simp [h1], rfl, rfl⟩

/-- Witness for C7 with a concrete walk arrival catching a concrete route. -/
theorem c7_ride_expansion_witness :
    (isTransfering
        (Segment.walk ⟨⟨⟨0⟩, none⟩, ⟨⟨1⟩, some "A"⟩, ⟨36000⟩, 60⟩)
        (tsOf .monday 10 0)
        ⟨"L1", .bus, "B", tsOf .monday 11 0, tsOf .monday 12 0, 3600⟩ = true ↔
      (∃ w, Segment.walk ⟨⟨⟨0⟩, none⟩, ⟨⟨1⟩, some "A"⟩, ⟨36000⟩, 60⟩ =
          Segment.walk w) ∨
        ∃ b, Segment.walk ⟨⟨⟨0⟩, none⟩, ⟨⟨1⟩, some "A"⟩, ⟨36000⟩, 60⟩ =
            Segment.bus b ∧
          (b.bus ≠ "L1" ∨ tsOf .monday 10 0 ≠ tsOf .monday 11 0)) :=
  (c7_ride_expansion (tsOf .monday 10 0) "A" (tsOf .monday 10 0) 0
    (Segment.walk ⟨⟨⟨0⟩, none⟩, ⟨⟨1⟩, some "A"⟩, ⟨36000⟩, 60⟩)
    ⟨"L1", .bus, "B", tsOf .monday 11 0, tsOf .monday 12 0, 3600⟩).1

theorem dedupFrom_id {merge : Segment → Segment → Option Segment} :
    ∀ (l : List Segment) (a : Segment),
      List.Chain' (fun x y => merge x y = none) (a :: l) →
      dedupFrom merge a l = a :: l := by
  intro l
  induction l with
  | nil => intro a h; rfl
  | cons b rest ih =>
    intro a h
    rw [List.chain'_cons] at h
    unfold dedupFrom
    rw [h.1, ih b h.2]

theorem dedupBySeg_id {merge : Segment → Segment → Option Segment}
    {l : List Segment} (h : List.Chain' (fun x y => merge x y = none) l) :
    dedupBySeg merge l = l := by
  cases l with
  | nil => rfl
  | cons a rest => exact dedupFrom_id rest a h

/-- C8 (confirmed): the post-processing passes merge two adjacent Ride
segments iff they carry the same bus and the earlier one's `start +
duration` equals the latter's `start` (durations summed, `to_stop` taken
from the latter); they merge any two adjacent Walk segments unconditionally
(durations summed, destination from the latter); and on a list with no such
adjacent pair, post-processing is the identity — no other rewrite occurs. -/
theorem c8_post_process_merges :
    (∀ x y m, mergeBusSeg x y = some m ↔
      ∃ a b, x = Segment.bus a ∧ y = Segment.bus b ∧ a.bus = b.bus ∧
        a.start.offset a.duration = b.start ∧
        m = Segment.bus { a with duration := a.duration + b.duration,
                                 to_stop := b.to_stop }) ∧
    (∀ x y m, mergeWalkSeg x y = some m ↔
      ∃ a b, x = Segment.walk a ∧ y = Segment.walk b ∧
        m = Segment.walk { a with duration := a.duration + b.duration,
                                  toPt := b.toPt }) ∧
    (∀ l, List.Chain'
        (fun x y => mergeBusSeg x y = none ∧ mergeWalkSeg x y = none) l →
      post_process_segments l = l) := by
  refine ⟨?_, ?_, ?_⟩
  · intro x y m
    cases x with
    | walk a => simp [mergeBusSeg]
    | bus a =>
      cases y with
      | walk b => simp [mergeBusSeg]
      | bus b =>
        simp only [mergeBusSeg]
        split_ifs with h1 h2
        · simp_all
        · simp_all
        · push_neg at h1 h2
          simp_all [eq_comm]
  · intro x y m
    cases x with
    | walk a =>
      cases y with
      | walk b => simp [mergeWalkSeg, eq_comm]
      | bus b => simp [mergeWalkSeg]
    | bus a => simp [mergeWalkSeg]
  · intro l h
    unfold post_process_segments
    rw [dedupBySeg_id (List.Chain'.imp (fun x y hxy => hxy.1) h),
        dedupBySeg_id (List.Chain'.imp (fun x y hxy => hxy.2) h)]

/-- Witness for C8: a concrete bus merge, and identity on a concrete
unmergeable walk-then-ride list. -/
theorem c8_post_process_merges_witness :
    (mergeBusSeg (Segment.bus ⟨"7", .bus, "A", "B", ⟨100⟩, 50⟩)
        (Segment.bus ⟨"7", .bus, "B", "C", ⟨150⟩, 70⟩) =
      some (Segment.bus ⟨"7", .bus, "A", "C", ⟨100⟩, 120⟩) ↔
      ∃ a b, Segment.bus ⟨"7", .bus, "A", "B", ⟨100⟩, 50⟩ = Segment.bus a ∧
        Segment.bus ⟨"7", .bus, "B", "C", ⟨150⟩, 70⟩ = Segment.bus b ∧
        a.bus = b.bus ∧ a.start.offset a.duration = b.start ∧
        Segment.bus ⟨"7", .bus, "A", "C", ⟨100⟩, 120⟩ =
          Segment.bus { a with duration := a.duration + b.duration,
                               to_stop := b.to_stop }) ∧
    post_process_segments
      [Segment.walk ⟨⟨⟨0⟩, none⟩, ⟨⟨1⟩, some "A"⟩, ⟨0⟩, 60⟩,
       Segment.bus ⟨"7", .bus, "A", "B", ⟨100⟩, 50⟩] =
      [Segment.walk ⟨⟨⟨0⟩, none⟩, ⟨⟨1⟩, some "A"⟩, ⟨0⟩, 60⟩,
       Segment.bus ⟨"7", .bus, "A", "B", ⟨100⟩, 50⟩] :=
  ⟨c8_post_process_merges.1 _ _ _,
   c8_post_process_merges.2.2 _
     (by rw [List.chain'_cons]
         exact ⟨⟨by decide, by decide⟩, List.chain'_singleton _⟩)⟩

/-- Distance oracle for the C1 scenario: every pair of points is 100 m
apart (well within `MAX_WALK_DISTANCE`). -/
def c1Dist : Point → Point → Rat := fun _ _ => 100

/-- Two stops, no routes: "B" is 100 m from "A". -/
def c1Stops : StopMap :=
  [("A", ⟨"StopA", ⟨0⟩, []⟩), ("B", ⟨"StopB", ⟨1⟩, []⟩)]

/-- The arriving segment of the item settling "A": a ride, so the walking
expansion is supposed to fire. -/
def c1Seg : Segment := Segment.bus ⟨"L9", .bus, "X", "A", ⟨600⟩, 60⟩

def c1Item : HeapItem :=
  { departure := tsOf .monday 10 0, arrival := tsOf .monday 11 0,
    transfers := 1, stop := "A", parent := none, segment := c1Seg }

unseal Rat.mul Rat.inv Rat.add in
/-- C1 (code bug): when the stop "A" is settled with a Ride arriving
segment and "B" lies 100 m away, the walking-expansion block does construct
the claimed Walk `HeapItem`s — arrival = settled arrival + walk time, same
transfer count, the settled stop as parent (first conjunct) — but the source
never pushes them (`let item = HeapItem {...};` with no `queue.push(item)`,
src/search/mod.rs lines 300–308), so the search ends with only "A" settled
and an empty frontier: nothing is ever enqueued for "B" (second conjunct),
contradicting the claimed enqueueing. -/
theorem c1_walk_expansion_never_enqueued :
    walkExpansionConstructed c1Stops c1Dist (tsOf .monday 10 0) ⟨0⟩ "StopA"
      "A" (tsOf .monday 11 0) 1 =
      [{ departure := tsOf .monday 10 0,
         arrival := (tsOf .monday 11 0).offset 90, transfers := 1,
         stop := "A", parent := some "A",
         segment := .walk { fromPt := ⟨⟨0⟩, some "StopA"⟩,
                            toPt := ⟨⟨0⟩, some "StopA"⟩,
                            start := (tsOf .monday 11 0).time,
                            duration := 90 } },
       { departure := tsOf .monday 10 0,
         arrival := (tsOf .monday 11 0).offset 90, transfers := 1,
         stop := "B", parent := some "A",
         segment := .walk { fromPt := ⟨⟨0⟩, some "StopA"⟩,
                            toPt := ⟨⟨1⟩, some "StopB"⟩,
                            start := (tsOf .monday 11 0).time,
                            duration := 90 } }] ∧
    searchLoop c1Stops c1Dist (tsOf .monday 10 0) ⟨2⟩
      (searchFuel c1Stops [] [c1Item]) [] [c1Item] =
      some [("A", { walk_finish := some ((tsOf .monday 11 0).offset 90),
                    arrival := tsOf .monday 11 0, transfers := 1,
                    arriving_segment := c1Seg, parent := none })] :=
  ⟨by decide, by decide⟩

theorem popMax_eq_none {q : List HeapItem} (h : popMax q = none) : q = [] := by
  cases q with
  | nil => rfl
  | cons x xs =>
    simp only [popMax] at h
    split at h
    · cases h
    · split_ifs at h <;> cases h

theorem popMax_some {q : List HeapItem} {it : HeapItem} {q' : List HeapItem}
    (h : popMax q = some (it, q')) :
    it ∈ q ∧ q.length = q'.length + 1 ∧ ∀ x ∈ q', x ∈ q := by
  induction q generalizing it q' with
  | nil => cases h
  | cons x xs ih =>
    simp only [popMax] at h
    split at h
    · rename_i hnone
      cases h
      have hx : xs = [] := popMax_eq_none hnone
      subst hx
      exact ⟨List.mem_cons_self _ _, rfl, by intro y hy; cases hy⟩
    · rename_i m rest hsome
      split_ifs at h with hcmp
      · cases h
        obtain ⟨hm, hlen, hsub⟩ := ih hsome
        refine ⟨List.mem_cons_of_mem _ hm, ?_, ?_⟩
        · simp only [List.length_cons]
          omega
        · intro y hy
          rcases List.mem_cons.mp hy with rfl | hy
          · exact List.mem_cons_self _ _
          · exact List.mem_cons_of_mem _ (hsub y hy)
      · cases h
        exact ⟨List.mem_cons_self _ _, rfl,
          fun y hy => List.mem_cons_of_mem _ hy⟩

theorem lookupTimes_eq_none_iff {times : List (String × StopInfo)}
    {k : String} :
    lookupTimes times k = none ↔ k ∉ times.map Prod.fst := by
  induction times with
  | nil => simp [lookupTimes]
  | cons p rest ih =>
    obtain ⟨k1, v1⟩ := p
    simp only [lookupTimes, List.map_cons, List.mem_cons]
    split_ifs with hk
    · subst hk; simp
    · rw [ih]
      constructor
      · intro h hor
        rcases hor with h1 | h1
        · exact hk h1.symm
        · exact h h1
      · intro h h1
        exact h (Or.inr h1)

theorem lookupTimes_isSome_of_mem {times : List (String × StopInfo)}
    {k : String} {v : StopInfo} (h : (k, v) ∈ times) :
    (lookupTimes times k).isSome := by
  induction times with
  | nil => cases h
  | cons p rest ih =>
    obtain ⟨k1, v1⟩ := p
    simp only [lookupTimes]
    split_ifs with hk
    · simp
    · rcases List.mem_cons.mp h with heq | h
      · cases heq; exact absurd rfl hk
      · exact ih h

theorem lookupTimes_append {l1 l2 : List (String × StopInfo)} {k : String} :
    lookupTimes (l1 ++ l2) k =
      match lookupTimes l1 k with
      | some v => some v
      | none => lookupTimes l2 k := by
  induction l1 with
  | nil => simp [lookupTimes]
  | cons p rest ih =>
    obtain ⟨k1, v1⟩ := p
    simp only [List.cons_append, lookupTimes]
    split_ifs with hk
    · rfl
    · exact ih

theorem lookupTimes_append_self {times : List (String × StopInfo)}
    {k0 : String} {i : StopInfo} (h : lookupTimes times k0 = none) :
    lookupTimes (times ++ [(k0, i)]) k0 = some i := by
  rw [lookupTimes_append, h]
  simp [lookupTimes]

theorem lookupTimes_append_ne {times : List (String × StopInfo)}
    {k0 k : String} (h : ¬ k0 = k) (i : StopInfo) :
    lookupTimes (times ++ [(k0, i)]) k = lookupTimes times k := by
  rw [lookupTimes_append]
  cases hl : lookupTimes times k with
  | some v => rfl
  | none => simp [lookupTimes, h]

theorem lookupTimes_append_some {times : List (String × StopInfo)}
    {k : String} {v : StopInfo} (h : lookupTimes times k = some v)
    (e : String × StopInfo) :
    lookupTimes (times ++ [e]) k = some v := by
  rw [lookupTimes_append, h]

theorem lookupTimes_append_none {times : List (String × StopInfo)}
    {k0 k : String} {i : StopInfo}
    (h : lookupTimes (times ++ [(k0, i)]) k = none) :
    lookupTimes times k = none := by
  rw [lookupTimes_append] at h
  cases hl : lookupTimes times k with
  | none => rfl
  | some v => rw [hl] at h; cases h

theorem lookupStop_mem {S : StopMap} {k : String} {v : Stop}
    (h : lookupStop S k = some v) : (k, v) ∈ S := by
  induction S with
  | nil => cases h
  | cons p rest ih =>
    obtain ⟨k1, v1⟩ := p
    simp only [lookupStop] at h
    split_ifs at h with hk
    · cases h; subst hk; exact List.mem_cons_self _ _
    · exact List.mem_cons_of_mem _ (ih h)

theorem lookupStop_isSome_of_mem {S : StopMap} {k : String} {v : Stop}
    (h : (k, v) ∈ S) : (lookupStop S k).isSome := by
  induction S with
  | nil => cases h
  | cons p rest ih =>
    obtain ⟨k1, v1⟩ := p
    simp only [lookupStop]
    split_ifs with hk
    · simp
    · rcases List.mem_cons.mp h with heq | h
      · cases heq; exact absurd rfl hk
      · exact ih h

theorem routesOfUnsettled_mono {S : StopMap}
    {times times' : List (String × StopInfo)}
    (h : ∀ k, lookupTimes times' k = none → lookupTimes times k = none) :
    routesOfUnsettled S times' ≤ routesOfUnsettled S times := by
  induction S with
  | nil => exact Nat.le_refl _
  | cons p rest ih =>
    unfold routesOfUnsettled at *
    simp only [List.filter_cons]
    split_ifs with hb1 hb2
    · simp only [List.map_cons, List.sum_cons]
      omega
    · exfalso
      refine hb2 ?_
      rw [Option.isNone_iff_eq_none]
      refine h p.1 ?_
      rw [← Option.isNone_iff_eq_none]
      exact hb1
    · simp only [List.map_cons, List.sum_cons]
      omega
    · exact ih

theorem routesOfUnsettled_settle {S : StopMap}
    {times : List (String × StopInfo)} {k0 : String} {st : Stop}
    {info : StopInfo}
    (hl : lookupTimes times k0 = none) (hs : lookupStop S k0 = some st) :
    routesOfUnsettled S (times ++ [(k0, info)]) + st.routes.length ≤
      routesOfUnsettled S times := by
  induction S with
  | nil => cases hs
  | cons p rest ih =>
    obtain ⟨k, v⟩ := p
    simp only [lookupStop] at hs
    unfold routesOfUnsettled
    simp only [List.filter_cons]
    split_ifs at hs with hk
    · have hv : v = st := by cases hs; rfl
      subst hv
      have hold : (lookupTimes times k).isNone = true := by
        rw [Option.isNone_iff_eq_none, hk]
        exact hl
      have hnew : ¬ ((lookupTimes (times ++ [(k0, info)]) k).isNone = true) := by
        rw [hk, Option.isNone_iff_eq_none, lookupTimes_append_self hl]
        simp
      rw [if_neg hnew, if_pos hold]
      simp only [List.map_cons, List.sum_cons]
      have hrest : routesOfUnsettled rest (times ++ [(k0, info)]) ≤
          routesOfUnsettled rest times :=
        routesOfUnsettled_mono (fun k2 hk2 => lookupTimes_append_none hk2)
      unfold routesOfUnsettled at hrest
      omega
    · have heq : lookupTimes (times ++ [(k0, info)]) k = lookupTimes times k :=
        lookupTimes_append_ne (fun h0 => hk h0.symm) info
      rw [heq]
      by_cases hc : (lookupTimes times k).isNone = true
      · rw [if_pos hc, if_pos hc]
        simp only [List.map_cons, List.sum_cons]
        have hih := ih hs
        unfold routesOfUnsettled at hih
        omega
      · rw [if_neg hc, if_neg hc]
        have hih := ih hs
        unfold routesOfUnsettled at hih
        exact hih

/-- Well-formedness assumed by the search claims: unique keys (a `HashMap`
invariant) and every edge's `next_stop` present in the map (the spec's data
invariant "every stopId referenced by any Track must exist"). -/
def WellFormedStops (S : StopMap) : Prop :=
  (S.map Prod.fst).Nodup ∧
  ∀ p ∈ S, ∀ r ∈ p.2.routes, (lookupStop S r.next_stop).isSome = true

instance (S : StopMap) : Decidable (WellFormedStops S) := by
  unfold WellFormedStops
  infer_instance

/-- The stop ids a segment carries exist in the map (walks carry none). -/
def SegOK (S : StopMap) : Segment → Prop
  | Segment.walk _ => True
  | Segment.bus b =>
    (lookupStop S b.from_stop).isSome = true ∧
    (lookupStop S b.to_stop).isSome = true

/-- Shape of a parentless (origin-seeded) item or entry: its segment is the
origin walk to its stop, name-free at the origin end, and its arrival is
the departure plus that walk time. -/
def RootShape (S : StopMap) (dist : Point → Point → Rat) (from_ : Point)
    (departure : Timestamp) (stopId : String) (arrival : Timestamp)
    (seg : Segment) : Prop :=
  ∃ stop, lookupStop S stopId = some stop ∧
    arrival = departure.offset (walk_time (dist from_ stop.loc)) ∧
    seg = Segment.walk { fromPt := ⟨from_, none⟩,
                         toPt := ⟨stop.loc, some stop.name⟩,
                         start := departure.time,
                         duration := walk_time (dist from_ stop.loc) }

/-- Invariant of a frontier item, relative to the current settled map. -/
def ItemInv (S : StopMap) (dist : Point → Point → Rat) (from_ : Point)
    (departure : Timestamp) (times : List (String × StopInfo))
    (it : HeapItem) : Prop :=
  (lookupStop S it.stop).isSome = true ∧ SegOK S it.segment ∧
  (match it.parent with
   | none => RootShape S dist from_ departure it.stop it.arrival it.segment
   | some p => (lookupTimes times p).isSome = true)

/-- Invariant of one settled entry, relative to the keys settled strictly
before it. -/
def EntryInv (S : StopMap) (dist : Point → Point → Rat) (from_ : Point)
    (departure : Timestamp) (toP : Point) (prevKeys : List String)
    (e : String × StopInfo) : Prop :=
  (∃ stop, lookupStop S e.1 = some stop ∧
    e.2.walk_finish =
      (if dist stop.loc toP > MAX_WALK_DISTANCE then none
       else some (e.2.arrival.offset (walk_time (dist stop.loc toP))))) ∧
  SegOK S e.2.arriving_segment ∧
  (match e.2.parent with
   | none => RootShape S dist from_ departure e.1 e.2.arrival
       e.2.arriving_segment
   | some p => p ∈ prevKeys)

/-- Invariant of the settled map: unique keys, and every entry valid
relative to its predecessors. -/
def TimesInv (S : StopMap) (dist : Point → Point → Rat) (from_ : Point)
    (departure : Timestamp) (toP : Point)
    (times : List (String × StopInfo)) : Prop :=
  (times.map Prod.fst).Nodup ∧
  ∀ i (h : i < times.length),
    EntryInv S dist from_ departure toP ((times.take i).map Prod.fst)
      (times.get ⟨i, h⟩)

theorem getAppendLeftAux {α : Type} (l1 l2 : List α) (i : Nat)
    (h : i < l1.length) (h' : i < (l1 ++ l2).length) :
    (l1 ++ l2).get ⟨i, h'⟩ = l1.get ⟨i, h⟩ := by
  induction l1 generalizing i with
  | nil => cases h
  | cons x xs ih =>
    cases i with
    | zero => rfl
    | succ j => exact ih j (by simpa using h) (by simpa using h')

theorem getConcatLengthAux {α : Type} (l : List α) (x : α)
    (h : l.length < (l ++ [x]).length) :
    (l ++ [x]).get ⟨l.length, h⟩ = x := by
  induction l with
  | nil => rfl
  | cons y ys ih => exact ih (by simpa using h)

theorem takeAppendLeftAux {α : Type} (l1 l2 : List α) (i : Nat)
    (h : i ≤ l1.length) : (l1 ++ l2).take i = l1.take i := by
  induction l1 generalizing i with
  | nil =>
    cases i with
    | zero => rfl
    | succ j => cases h
  | cons x xs ih =>
    cases i with
    | zero => rfl
    | succ j => simp only [List.cons_append, List.take_succ_cons]
                rw [ih j (by simpa using h)]

theorem mem_of_lookupTimes_isSome {times : List (String × StopInfo)}
    {k : String} (h : (lookupTimes times k).isSome = true) :
    k ∈ times.map Prod.fst := by
  by_contra hmem
  rw [← lookupTimes_eq_none_iff] at hmem
  rw [hmem] at h
  cases h

theorem lookupTimes_eq_none_of_not_isSome {times : List (String × StopInfo)}
    {k : String} (h : ¬ (lookupTimes times k).isSome = true) :
    lookupTimes times k = none := by
  cases hl : lookupTimes times k with
  | none => rfl
  | some v => rw [hl] at h; exact absurd rfl h

theorem searchLoop_ok (S : StopMap) (dist : Point → Point → Rat)
    (from_ : Point) (departure : Timestamp) (toP : Point)
    (hwf : WellFormedStops S) :
    ∀ (fuel : Nat) (times : List (String × StopInfo)) (queue : List HeapItem),
      queue.length + routesOfUnsettled S times < fuel →
      TimesInv S dist from_ departure toP times →
      (∀ it ∈ queue, ItemInv S dist from_ departure times it) →
      ∃ times',
        searchLoop S dist departure toP fuel times queue = some times' ∧
        TimesInv S dist from_ departure toP times' := by
  intro fuel
  induction fuel with
  | zero => intro times queue hlt _ _; omega
  | succ fuel ih =>
    intro times queue hlt hT hQ
    cases hpop : popMax queue with
    | none =>
      refine ⟨times, ?_, hT⟩
      simp only [searchLoop, hpop]
    | some pr =>
      obtain ⟨item, queue'⟩ := pr
      obtain ⟨hmem, hlen, hsub⟩ := popMax_some hpop
      by_cases hset : (lookupTimes times item.stop).isSome = true
      · obtain ⟨times', heq, hT'⟩ := ih times queue' (by omega) hT
          (fun it hit => hQ it (hsub it hit))
        refine ⟨times', ?_, hT'⟩
        simp only [searchLoop, hpop]
        rw [if_pos hset]
        exact heq
      · obtain ⟨hstopSome, hsegOK, hparent⟩ := hQ item hmem
        obtain ⟨stop, hstop⟩ := Option.isSome_iff_exists.mp hstopSome
        have hnone : lookupTimes times item.stop = none :=
          lookupTimes_eq_none_of_not_isSome hset
        set newInfo : StopInfo :=
          { walk_finish :=
              if dist stop.loc toP > MAX_WALK_DISTANCE then none
              else some (item.arrival.offset (walk_time (dist stop.loc toP))),
            arrival := item.arrival, transfers := item.transfers,
            arriving_segment := item.segment, parent := item.parent } with hInfo
        set pushes : List HeapItem := stop.routes.filterMap
          (rideExpandItem departure item.stop item.arrival item.transfers
            item.segment) with hPushes
        have hstep : settleStep S dist departure toP times item queue' =
            some (times ++ [(item.stop, newInfo)], queue' ++ pushes) := by
          simp only [settleStep, hstop]
        have hfuel : (queue' ++ pushes).length +
            routesOfUnsettled S (times ++ [(item.stop, newInfo)]) < fuel := by
          have h1 : pushes.length ≤ stop.routes.length := by
            rw [hPushes]
            exact List.length_filterMap_le _ _
          have h2 := @routesOfUnsettled_settle _ _ _ _ newInfo hnone hstop
          simp only [List.length_append]
          omega
        have hTnew : TimesInv S dist from_ departure toP
            (times ++ [(item.stop, newInfo)]) := by
          constructor
          · rw [List.map_append, List.nodup_append]
            refine ⟨hT.1, by simp, ?_⟩
            intro a ha hb
            simp only [List.map_cons, List.map_nil, List.mem_singleton] at hb
            subst hb
            have := lookupTimes_eq_none_iff.mp hnone
            exact this ha
          · intro i h
            by_cases hi : i < times.length
            · rw [getAppendLeftAux _ _ _ hi h,
                  takeAppendLeftAux _ _ _ (Nat.le_of_lt hi)]
              exact hT.2 i hi
            · have hieq : i = times.length := by
                simp only [List.length_append, List.length_cons,
                  List.length_nil] at h
                omega
              subst hieq
              rw [getConcatLengthAux _ _ h,
                  takeAppendLeftAux _ _ _ (Nat.le_refl _)]
              refine ⟨⟨stop, hstop, rfl⟩, hsegOK, ?_⟩
              rw [hInfo]
              cases hpar : item.parent with
              | none =>
                simp only
                rw [hpar] at hparent
                exact hparent
              | some p =>
                simp only
                rw [hpar] at hparent
                rw [List.take_length]
                exact mem_of_lookupTimes_isSome hparent
        have hQnew : ∀ it ∈ queue' ++ pushes,
            ItemInv S dist from_ departure
              (times ++ [(item.stop, newInfo)]) it := by
          intro it hit
          rcases List.mem_append.mp hit with hit | hit
          · obtain ⟨h1, h2, h3⟩ := hQ it (hsub it hit)
            refine ⟨h1, h2, ?_⟩
            cases hpar : it.parent with
            | none => rw [hpar] at h3; exact h3
            | some p =>
              rw [hpar] at h3
              obtain ⟨v, hv⟩ := Option.isSome_iff_exists.mp h3
              show (lookupTimes (times ++ [(item.stop, newInfo)]) p).isSome
                = true
              rw [lookupTimes_append_some hv]
              rfl
          · rw [hPushes] at hit
            obtain ⟨r, hr, hexp⟩ := List.mem_filterMap.mp hit
            unfold rideExpandItem at hexp
            have hnext : (lookupStop S r.next_stop).isSome = true :=
              hwf.2 (item.stop, stop) (lookupStop_mem hstop) r hr
            split_ifs at hexp <;>
              (cases hexp
               refine ⟨hnext, ⟨hstopSome, hnext⟩, ?_⟩
               show (lookupTimes (times ++ [(item.stop, newInfo)])
                 item.stop).isSome = true
               rw [lookupTimes_append_self hnone]
               rfl)
        obtain ⟨times', heq, hT'⟩ := ih _ _ hfuel hTnew hQnew
        refine ⟨times', ?_, hT'⟩
        simp only [searchLoop, hpop]
        rw [if_neg hset, hstep]
        exact heq

theorem lengthEraseIdxAux {α : Type} :
    ∀ (l : List α) (i : Nat), i < l.length →
      (l.eraseIdx i).length = l.length - 1 := by
  intro l
  induction l with
  | nil => intro i hi; cases hi
  | cons x xs ih =>
    intro i hi
    cases i with
    | zero => rfl
    | succ j =>
      simp only [List.eraseIdx, List.length_cons]
      rw [ih j (by simpa using hi)]
      have : 0 < xs.length := by
        have := (by simpa using hi : j < xs.length)
        omega
      omega

theorem getEraseIdxLtAux {α : Type} :
    ∀ (l : List α) (i j : Nat) (hij : j < i) (hi : i < l.length)
      (hj1 : j < (l.eraseIdx i).length) (hj2 : j < l.length),
      (l.eraseIdx i).get ⟨j, hj1⟩ = l.get ⟨j, hj2⟩ := by
  intro l
  induction l with
  | nil => intro i j hij hi; cases hi
  | cons x xs ih =>
    intro i j hij hi hj1 hj2
    cases i with
    | zero => cases hij
    | succ i2 =>
      cases j with
      | zero => rfl
      | succ j2 =>
        exact ih i2 j2 (by omega) (by simpa using hi) (by simpa using hj1)
          (by simpa using hj2)

theorem takeEraseIdxAux {α : Type} :
    ∀ (l : List α) (i j : Nat), j ≤ i →
      (l.eraseIdx i).take j = l.take j := by
  intro l
  induction l with
  | nil => intro i j h; simp [List.eraseIdx]
  | cons x xs ih =>
    intro i j h
    cases i with
    | zero =>
      cases j with
      | zero => rfl
      | succ j2 => cases h
    | succ i2 =>
      cases j with
      | zero => rfl
      | succ j2 =>
        simp only [List.eraseIdx, List.take_succ_cons]
        rw [ih i2 j2 (by omega)]

theorem nodupEraseIdxFst {times : List (String × StopInfo)} {i : Nat}
    (h : (times.map Prod.fst).Nodup) :
    ((times.eraseIdx i).map Prod.fst).Nodup :=
  List.Nodup.sublist (List.Sublist.map _ (List.eraseIdx_sublist times i)) h

theorem removeEntry_of_get :
    ∀ (times : List (String × StopInfo)) (i : Nat) (hi : i < times.length),
      (times.map Prod.fst).Nodup →
      removeEntry times (times.get ⟨i, hi⟩).1 =
        some ((times.get ⟨i, hi⟩).2, times.eraseIdx i) := by
  intro times
  induction times with
  | nil => intro i hi; cases hi
  | cons p rest ih =>
    intro i hi hnd
    obtain ⟨k, v⟩ := p
    rw [List.map_cons, List.nodup_cons] at hnd
    cases i with
    | zero =>
      simp [removeEntry, List.eraseIdx]
    | succ j =>
      have hj : j < rest.length := by simpa using hi
      have hkne : ¬ (k = (rest.get ⟨j, hj⟩).1) := by
        intro hkeq
        have hmem : (rest.get ⟨j, hj⟩).1 ∈ rest.map Prod.fst :=
          List.mem_map_of_mem _ (List.get_mem rest j hj)
        exact hnd.1 (hkeq ▸ hmem)
      simp only [removeEntry, List.get]
      rw [if_neg hkne, ih j hj hnd.2]
      rfl

theorem mem_take_fst {times : List (String × StopInfo)} {i : Nat}
    {p : String} (h : p ∈ (times.take i).map Prod.fst) :
    ∃ (j : Nat) (hj : j < times.length),
      j < i ∧ (times.get ⟨j, hj⟩).1 = p := by
  induction times generalizing i with
  | nil => simp at h
  | cons q rest ih =>
    cases i with
    | zero => simp at h
    | succ i2 =>
      simp only [List.take_succ_cons, List.map_cons, List.mem_cons] at h
      rcases h with h | h
      · exact ⟨0, by simp, Nat.succ_pos _, h.symm⟩
      · obtain ⟨j, hj, hlt, hget⟩ := ih h
        exact ⟨j + 1, by simpa using hj, Nat.succ_lt_succ hlt, hget⟩

theorem reconstructSegs_ok (S : StopMap) (dist : Point → Point → Rat)
    (from_ : Point) (departure : Timestamp) (toP : Point) :
    ∀ (i : Nat) (times : List (String × StopInfo)) (acc : List Segment)
      (fuel : Nat) (hi : i < times.length),
      (times.map Prod.fst).Nodup →
      (∀ j (hj : j < times.length), j ≤ i →
        EntryInv S dist from_ departure toP ((times.take j).map Prod.fst)
          (times.get ⟨j, hj⟩)) →
      i < fuel →
      ∃ mid w dt,
        reconstructSegs S dist from_ fuel times (times.get ⟨i, hi⟩).1 acc =
          some (acc ++ mid ++ [Segment.walk w], dt) ∧
        w.fromPt = ⟨from_, none⟩ ∧
        (∀ s ∈ mid, SegOK S s) := by
  intro i
  induction i using Nat.strong_induction_on with
  | _ i ihs =>
    intro times acc fuel hi hnd hE hfuel
    cases fuel with
    | zero => omega
    | succ fuel =>
      have hrm : removeEntry times (times.get ⟨i, hi⟩).1 =
          some ((times.get ⟨i, hi⟩).2, times.eraseIdx i) :=
        removeEntry_of_get times i hi hnd
      obtain ⟨hwfin, hseg, hpar⟩ := hE i hi (Nat.le_refl i)
      cases hp : (times.get ⟨i, hi⟩).2.parent with
      | none =>
        rw [hp] at hpar
        obtain ⟨stop, hstopl, harr, hsegEq⟩ := hpar
        refine ⟨[], { fromPt := ⟨from_, none⟩,
                      toPt := ⟨stop.loc, some stop.name⟩,
                      start := departure.time,
                      duration := walk_time (dist from_ stop.loc) },
          ((times.get ⟨i, hi⟩).2.arrival.neg_offset
            (walk_time (dist from_ stop.loc))).time, ?_, rfl, by simp⟩
        simp only [reconstructSegs, hrm, hp, hstopl]
        rw [hsegEq]
        simp
      | some p =>
        rw [hp] at hpar
        obtain ⟨j, hj, hjlt, hjp⟩ := mem_take_fst hpar
        have hj' : j < (times.eraseIdx i).length := by
          rw [lengthEraseIdxAux times i hi]
          omega
        have hnd' : ((times.eraseIdx i).map Prod.fst).Nodup :=
          nodupEraseIdxFst hnd
        have hget' : (times.eraseIdx i).get ⟨j, hj'⟩ = times.get ⟨j, hj⟩ :=
          getEraseIdxLtAux times i j hjlt hi hj' hj
        have hE' : ∀ j2 (hj2 : j2 < (times.eraseIdx i).length), j2 ≤ j →
            EntryInv S dist from_ departure toP
              (((times.eraseIdx i).take j2).map Prod.fst)
              ((times.eraseIdx i).get ⟨j2, hj2⟩) := by
          intro j2 hj2 hle
          have hj2' : j2 < times.length := by
            rw [lengthEraseIdxAux times i hi] at hj2
            omega
          rw [takeEraseIdxAux times i j2 (by omega),
              getEraseIdxLtAux times i j2 (by omega) hi hj2 hj2']
          exact hE j2 hj2' (by omega)
        obtain ⟨mid, w, dt, hrec, hwfrom, hmid⟩ :=
          ihs j hjlt (times.eraseIdx i)
            (acc ++ [(times.get ⟨i, hi⟩).2.arriving_segment]) fuel hj' hnd'
            hE' (by omega)
        have hkey : ((times.eraseIdx i).get ⟨j, hj'⟩).1 = p := by
          rw [hget']
          exact hjp
        rw [hkey] at hrec
        refine ⟨(times.get ⟨i, hi⟩).2.arriving_segment :: mid, w, dt, ?_,
          hwfrom, ?_⟩
        · simp only [reconstructSegs, hrm, hp]
          rw [hrec]
          simp
        · intro s hs
          rcases List.mem_cons.mp hs with rfl | hs
          · exact hseg
          · exact hmid s hs

theorem finalCandidates_eq_nil_iff {times : List (String × StopInfo)} :
    finalCandidates times = [] ↔ ∀ p ∈ times, p.2.walk_finish = none := by
  induction times with
  | nil => simp [finalCandidates]
  | cons q rest ih =>
    unfold finalCandidates at *
    simp only [List.filterMap_cons]
    cases hw : q.2.walk_finish with
    | none => simp only; rw [ih]; constructor
              · intro h p hp
                rcases List.mem_cons.mp hp with rfl | hp
                · exact hw
                · exact h p hp
              · intro h p hp
                exact h p (List.mem_cons_of_mem _ hp)
    | some wf => simp only
                 constructor
                 · intro h; cases h
                 · intro h
                   have := h q (List.mem_cons_self _ _)
                   rw [hw] at this
                   cases this

theorem mem_finalCandidates {times : List (String × StopInfo)}
    {c : String × Timestamp × Nat} (h : c ∈ finalCandidates times) :
    ∃ q ∈ times, q.1 = c.1 ∧ q.2.walk_finish = some c.2.1 ∧
      q.2.transfers = c.2.2 := by
  unfold finalCandidates at h
  obtain ⟨q, hq, hc⟩ := List.mem_filterMap.mp h
  cases hw : q.2.walk_finish with
  | none => rw [hw] at hc; cases hc
  | some wf =>
    rw [hw] at hc
    cases hc
    exact ⟨q, hq, rfl, hw, rfl⟩

theorem exists_mem_finalCandidates {times : List (String × StopInfo)}
    {q : String × StopInfo} {wf : Timestamp} (hq : q ∈ times)
    (hw : q.2.walk_finish = some wf) :
    (q.1, wf, q.2.transfers) ∈ finalCandidates times := by
  unfold finalCandidates
  refine List.mem_filterMap.mpr ⟨q, hq, ?_⟩
  rw [hw]

theorem minBySel_foldl_mem {α : Type} (cmp : α → α → Ordering) :
    ∀ (l : List α) (acc b : α),
      (l.foldl (fun acc x =>
        match acc with
        | none => some x
        | some a => if cmp a x = Ordering.lt then some a else some x)
        (some acc)) = some b → b = acc ∨ b ∈ l := by
  intro l
  induction l with
  | nil => intro acc b h; cases h; exact Or.inl rfl
  | cons x xs ih =>
    intro acc b h
    simp only [List.foldl_cons] at h
    split_ifs at h with hc
    · rcases ih acc b h with h1 | h1
      · exact Or.inl h1
      · exact Or.inr (List.mem_cons_of_mem _ h1)
    · rcases ih x b h with h1 | h1
      · exact Or.inr (h1 ▸ List.mem_cons_self _ _)
      · exact Or.inr (List.mem_cons_of_mem _ h1)

theorem minBySel_none_mem {α : Type} (cmp : α → α → Ordering) :
    ∀ (l : List α) (b : α), minBySel cmp l = some b → b ∈ l := by
  intro l b h
  unfold minBySel at h
  cases l with
  | nil => cases h
  | cons x xs =>
    simp only [List.foldl_cons] at h
    rcases minBySel_foldl_mem cmp xs x b h with h1 | h1
    · exact h1 ▸ List.mem_cons_self _ _
    · exact List.mem_cons_of_mem _ h1

theorem minBySel_foldl_isSome {α : Type} (cmp : α → α → Ordering) :
    ∀ (l : List α) (acc : α),
      ∃ b, (l.foldl (fun acc x =>
        match acc with
        | none => some x
        | some a => if cmp a x = Ordering.lt then some a else some x)
        (some acc)) = some b := by
  intro l
  induction l with
  | nil => intro acc; exact ⟨acc, rfl⟩
  | cons x xs ih =>
    intro acc
    simp only [List.foldl_cons]
    split_ifs with hc
    · exact ih acc
    · exact ih x

theorem minBySel_cons_isSome {α : Type} (cmp : α → α → Ordering)
    (x : α) (xs : List α) : ∃ b, minBySel cmp (x :: xs) = some b := by
  unfold minBySel
  simp only [List.foldl_cons]
  exact minBySel_foldl_isSome cmp xs x

theorem translateSegment_isSome {S : StopMap} {s : Segment}
    (h : SegOK S s) : ∃ s', translateSegment S s = some s' := by
  cases s with
  | walk w => exact ⟨Segment.walk w, rfl⟩
  | bus b =>
    obtain ⟨h1, h2⟩ := h
    obtain ⟨f, hf⟩ := Option.isSome_iff_exists.mp h1
    obtain ⟨t, ht⟩ := Option.isSome_iff_exists.mp h2
    refine ⟨Segment.bus { b with from_stop := f.name, to_stop := t.name }, ?_⟩
    simp only [translateSegment, hf, ht]

theorem translateSegments_isSome {S : StopMap} :
    ∀ {l : List Segment}, (∀ s ∈ l, SegOK S s) →
      ∃ l', translateSegments S l = some l' := by
  intro l
  induction l with
  | nil => intro _; exact ⟨[], rfl⟩
  | cons s rest ih =>
    intro h
    obtain ⟨s', hs⟩ := translateSegment_isSome (h s (List.mem_cons_self _ _))
    obtain ⟨rest', hrest⟩ := ih (fun x hx => h x (List.mem_cons_of_mem _ hx))
    refine ⟨s' :: rest', ?_⟩
    simp only [translateSegments, hs, hrest]

theorem translate_head_walk {S : StopMap} {w : WalkSegment}
    {rest l' : List Segment}
    (h : translateSegments S (Segment.walk w :: rest) = some l') :
    ∃ rest', l' = Segment.walk w :: rest' ∧
      translateSegments S rest = some rest' := by
  simp only [translateSegments, translateSegment] at h
  cases hr : translateSegments S rest with
  | none => rw [hr] at h; cases h
  | some rest' =>
    rw [hr] at h
    cases h
    exact ⟨rest', rfl, rfl⟩

theorem translate_last_walk {S : StopMap} :
    ∀ {l l' : List Segment} {w : WalkSegment},
      l.getLast? = some (Segment.walk w) →
      translateSegments S l = some l' →
      l'.getLast? = some (Segment.walk w) := by
  intro l
  induction l with
  | nil => intro l' w h; cases h
  | cons s rest ih =>
    intro l' w hlast htr
    simp only [translateSegments] at htr
    cases hs : translateSegment S s with
    | none => rw [hs] at htr; cases htr
    | some s' =>
      cases hr : translateSegments S rest with
      | none => rw [hs, hr] at htr; cases htr
      | some rest' =>
        rw [hs, hr] at htr
        cases htr
        cases rest with
        | nil =>
          cases hre : rest' with
          | cons a b =>
            rw [hre] at hr
            cases hr
          | nil =>
            simp only [List.getLast?_singleton] at hlast ⊢
            cases hlast
            cases hs
            rfl
        | cons r2 rest2 =>
          have hne : rest' ≠ [] := by
            intro hre
            rw [hre] at hr
            simp only [translateSegments] at hr
            cases h2 : translateSegment S r2 with
            | none => rw [h2] at hr; cases hr
            | some x =>
              cases h3 : translateSegments S rest2 with
              | none => rw [h2, h3] at hr; cases hr
              | some y => rw [h2, h3] at hr; cases hr
          rw [List.getLast?_cons_cons] at hlast
          have := ih hlast hr
          cases hre : rest' with
          | nil => exact absurd hre hne
          | cons a b =>
            rw [hre] at this
            rw [List.getLast?_cons_cons]
            exact this

theorem mergeBus_walk_left (w : WalkSegment) (b : Segment) :
    mergeBusSeg (Segment.walk w) b = none := by
  cases b <;> rfl

theorem dedupFrom_ne_nil {merge : Segment → Segment → Option Segment} :
    ∀ (l : List Segment) (a : Segment), dedupFrom merge a l ≠ [] := by
  intro l
  induction l with
  | nil => intro a h; cases h
  | cons b rest ih =>
    intro a h
    simp only [dedupFrom] at h
    cases hm : merge a b with
    | some m => rw [hm] at h; exact ih m h
    | none => rw [hm] at h; cases h

theorem dedupBus_head_walk (w : WalkSegment) (rest : List Segment) :
    ∃ rest', dedupBySeg mergeBusSeg (Segment.walk w :: rest) =
      Segment.walk w :: rest' := by
  cases rest with
  | nil => exact ⟨[], rfl⟩
  | cons b rest2 =>
    refine ⟨dedupFrom mergeBusSeg b rest2, ?_⟩
    simp only [dedupBySeg, dedupFrom, mergeBus_walk_left]

theorem dedupWalk_head_walk :
    ∀ (rest : List Segment) (w : WalkSegment),
      ∃ w' rest', dedupFrom mergeWalkSeg (Segment.walk w) rest =
        Segment.walk w' :: rest' ∧ w'.fromPt = w.fromPt := by
  intro rest
  induction rest with
  | nil => intro w; exact ⟨w, [], rfl, rfl⟩
  | cons s rest2 ih =>
    intro w
    cases s with
    | walk b =>
      obtain ⟨w', rest', heq, hfrom⟩ :=
        ih { w with duration := w.duration + b.duration, toPt := b.toPt }
      refine ⟨w', rest', ?_, hfrom⟩
      simp only [dedupFrom, mergeWalkSeg]
      exact heq
    | bus b =>
      refine ⟨w, dedupFrom mergeWalkSeg (Segment.bus b) rest2, ?_, rfl⟩
      simp only [dedupFrom, mergeWalkSeg]

theorem dedupBus_last_walk :
    ∀ (l : List Segment) (a : Segment) (w : WalkSegment),
      (a :: l).getLast? = some (Segment.walk w) →
      (dedupFrom mergeBusSeg a l).getLast? = some (Segment.walk w) := by
  intro l
  induction l with
  | nil =>
    intro a w h
    simp only [List.getLast?_singleton] at h
    cases h
    rfl
  | cons b rest ih =>
    intro a w h
    rw [List.getLast?_cons_cons] at h
    simp only [dedupFrom]
    cases hm : mergeBusSeg a b with
    | some m =>
      cases rest with
      | nil =>
        simp only [List.getLast?_singleton] at h
        cases h
        cases a with
        | walk wa => rw [mergeBus_walk_left] at hm; cases hm
        | bus ba =>
          simp only [mergeBusSeg] at hm
          cases hm
      | cons c rest2 =>
        rw [List.getLast?_cons_cons] at h
        have := ih m w (by rw [List.getLast?_cons_cons]; exact h)
        exact this
    | none =>
      have hne := @dedupFrom_ne_nil mergeBusSeg rest b
      cases hd : dedupFrom mergeBusSeg b rest with
      | nil => exact absurd hd hne
      | cons x xs =>
        show (a :: x :: xs).getLast? = some (Segment.walk w)
        rw [List.getLast?_cons_cons, ← hd]
        exact ih b w h

theorem dedupWalk_last_walk :
    ∀ (l : List Segment) (a : Segment) (w : WalkSegment),
      (a :: l).getLast? = some (Segment.walk w) →
      ∃ w', (dedupFrom mergeWalkSeg a l).getLast? =
        some (Segment.walk w') ∧ w'.toPt = w.toPt := by
  intro l
  induction l with
  | nil =>
    intro a w h
    simp only [List.getLast?_singleton] at h
    cases h
    exact ⟨w, rfl, rfl⟩
  | cons b rest ih =>
    intro a w h
    rw [List.getLast?_cons_cons] at h
    simp only [dedupFrom]
    cases hm : mergeWalkSeg a b with
    | some m =>
      cases rest with
      | nil =>
        simp only [List.getLast?_singleton] at h
        cases h
        cases a with
        | bus ba => simp only [mergeWalkSeg] at hm; cases hm
        | walk wa =>
          simp only [mergeWalkSeg] at hm
          cases hm
          exact ⟨{ fromPt := wa.fromPt, toPt := w.toPt, start := wa.start,
                   duration := wa.duration + w.duration }, rfl, rfl⟩
      | cons c rest2 =>
        rw [List.getLast?_cons_cons] at h
        exact ih m w (by rw [List.getLast?_cons_cons]; exact h)
    | none =>
      have hne := @dedupFrom_ne_nil mergeWalkSeg rest b
      cases hd : dedupFrom mergeWalkSeg b rest with
      | nil => exact absurd hd hne
      | cons x xs =>
        obtain ⟨w', hlast, hto⟩ := ih b w h
        rw [hd] at hlast
        refine ⟨w', ?_, hto⟩
        show (a :: x :: xs).getLast? = some (Segment.walk w')
        rw [List.getLast?_cons_cons]
        exact hlast

theorem lookupStop_of_mem_nodup {S : StopMap} {k : String} {v : Stop}
    (hnd : (S.map Prod.fst).Nodup) (h : (k, v) ∈ S) :
    lookupStop S k = some v := by
  induction S with
  | nil => cases h
  | cons p rest ih =>
    obtain ⟨k1, v1⟩ := p
    rw [List.map_cons, List.nodup_cons] at hnd
    simp only [lookupStop]
    rcases List.mem_cons.mp h with heq | hmem
    · cases heq
      rw [if_pos rfl]
    · split_ifs with hk
      · subst hk
        exact absurd (List.mem_map_of_mem _ hmem) hnd.1
      · exact ih hnd.2 hmem

theorem lookupTimes_of_mem_nodup {times : List (String × StopInfo)}
    {k : String} {v : StopInfo}
    (hnd : (times.map Prod.fst).Nodup) (h : (k, v) ∈ times) :
    lookupTimes times k = some v := by
  induction times with
  | nil => cases h
  | cons p rest ih =>
    obtain ⟨k1, v1⟩ := p
    rw [List.map_cons, List.nodup_cons] at hnd
    simp only [lookupTimes]
    rcases List.mem_cons.mp h with heq | hmem
    · cases heq
      rw [if_pos rfl]
    · split_ifs with hk
      · subst hk
        exact absurd (List.mem_map_of_mem _ hmem) hnd.1
      · exact ih hnd.2 hmem

theorem initialItems_inv (S : StopMap) (dist : Point → Point → Rat)
    (from_ : Point) (departure : Timestamp)
    (hnd : (S.map Prod.fst).Nodup) :
    ∀ it ∈ initialItems S dist from_ departure,
      ItemInv S dist from_ departure [] it := by
  intro it hit
  unfold initialItems at hit
  obtain ⟨p, hp, hsome⟩ := List.mem_filterMap.mp hit
  split_ifs at hsome with hfar
  cases hsome
  have hlook : lookupStop S p.1 = some p.2 := lookupStop_of_mem_nodup hnd
    (by cases p; exact hp)
  refine ⟨by rw [hlook]; rfl, trivial, ?_⟩
  exact ⟨p.2, hlook, rfl, rfl⟩

theorem findRoute_run (S : StopMap) (dist : Point → Point → Rat)
    (from_ toP : Point) (departure : Timestamp) (hwf : WellFormedStops S) :
    ∃ times,
      searchLoop S dist departure toP
        (searchFuel S [] (initialItems S dist from_ departure)) []
        (initialItems S dist from_ departure) = some times ∧
      TimesInv S dist from_ departure toP times := by
  refine searchLoop_ok S dist from_ departure toP hwf _ [] _ ?_ ?_ ?_
  · unfold searchFuel
    omega
  · exact ⟨List.nodup_nil, fun i h => absurd h (Nat.not_lt_zero i)⟩
  · exact initialItems_inv S dist from_ departure hwf.1

theorem findRoute_noRoute {S : StopMap} {dist : Point → Point → Rat}
    {from_ toP : Point} {departure : Timestamp}
    {times : List (String × StopInfo)}
    (hloop : searchLoop S dist departure toP
      (searchFuel S [] (initialItems S dist from_ departure)) []
      (initialItems S dist from_ departure) = some times)
    (hall : ∀ p ∈ times, p.2.walk_finish = none) :
    findRoute ⟨S⟩ dist from_ toP departure = some none := by
  have hsel : finalSelection departure times = none := by
    unfold finalSelection
    rw [finalCandidates_eq_nil_iff.mpr hall]
    rfl
  simp only [findRoute, hloop, hsel]

theorem findRoute_success {S : StopMap} {dist : Point → Point → Rat}
    {from_ toP : Point} {departure : Timestamp}
    {times : List (String × StopInfo)}
    (hloop : searchLoop S dist departure toP
      (searchFuel S [] (initialItems S dist from_ departure)) []
      (initialItems S dist from_ departure) = some times)
    (hT : TimesInv S dist from_ departure toP times)
    (hex : ∃ p ∈ times, p.2.walk_finish ≠ none) :
    ∃ r, findRoute ⟨S⟩ dist from_ toP departure = some (some r) ∧
      r.segments ≠ [] ∧
      (∃ w rest, r.segments = Segment.walk w :: rest ∧
        w.fromPt = ⟨from_, none⟩) ∧
      (∃ w2, r.segments.getLast? = some (Segment.walk w2) ∧
        w2.toPt = ⟨toP, none⟩) := by
  obtain ⟨p0, hp0, hwf0⟩ := hex
  obtain ⟨wf0, hwf0'⟩ := Option.ne_none_iff_exists'.mp hwf0
  have hcand0 := exists_mem_finalCandidates hp0 hwf0'
  obtain ⟨c, hsel⟩ : ∃ c, finalSelection departure times = some c := by
    unfold finalSelection
    cases hfc : finalCandidates times with
    | nil => rw [hfc] at hcand0; cases hcand0
    | cons x xs => exact minBySel_cons_isSome _ x xs
  obtain ⟨fs, at_, tr⟩ := c
  have hcmem : (fs, at_, tr) ∈ finalCandidates times := by
    have h2 := hsel
    unfold finalSelection at h2
    exact minBySel_none_mem _ _ _ h2
  obtain ⟨q, hq, hq1, hq2, hq3⟩ := mem_finalCandidates hcmem
  obtain ⟨⟨i, hi⟩, hgi⟩ := List.mem_iff_get.mp hq
  obtain ⟨⟨stop0, hstop0, hwfeq⟩, hsegOK0, hparent0⟩ := hT.2 i hi
  have hgfst : (times.get ⟨i, hi⟩).1 = fs := by rw [hgi, hq1]
  have hlookS : lookupStop S fs = some stop0 := by
    rw [← hgfst]
    exact hstop0
  have hq1' : q.1 = fs := hq1
  have hlookT : lookupTimes times fs = some q.2 := by
    refine lookupTimes_of_mem_nodup hT.1 ?_
    rw [← hq1']
    exact hq
  obtain ⟨mid, w, dt, hrec, hwfrom, hmid⟩ :=
    reconstructSegs_ok S dist from_ departure toP i times
      [Segment.walk { fromPt := ⟨stop0.loc, some stop0.name⟩,
                      toPt := ⟨toP, none⟩,
                      start := q.2.arrival.time,
                      duration := walk_time (dist stop0.loc toP) }]
      times.length hi hT.1 (fun j hj _ => hT.2 j hj) hi
  rw [hgfst] at hrec
  have hallOK : ∀ s ∈
      ([Segment.walk { fromPt := ⟨stop0.loc, some stop0.name⟩,
                       toPt := ⟨toP, none⟩,
                       start := q.2.arrival.time,
                       duration := walk_time (dist stop0.loc toP) }] ++
        mid ++ [Segment.walk w]).reverse, SegOK S s := by
    intro s hs
    rw [List.mem_reverse] at hs
    rcases List.mem_append.mp hs with hs | hs
    · rcases List.mem_append.mp hs with hs | hs
      · obtain rfl := List.mem_singleton.mp hs
        trivial
      · exact hmid s hs
    · obtain rfl := List.mem_singleton.mp hs
      trivial
  obtain ⟨l', htr⟩ := translateSegments_isSome hallOK
  have hrev :
      ([Segment.walk { fromPt := ⟨stop0.loc, some stop0.name⟩,
                       toPt := ⟨toP, none⟩,
                       start := q.2.arrival.time,
                       duration := walk_time (dist stop0.loc toP) }] ++
        mid ++ [Segment.walk w]).reverse =
      Segment.walk w :: (mid.reverse ++
        [Segment.walk { fromPt := ⟨stop0.loc, some stop0.name⟩,
                        toPt := ⟨toP, none⟩,
                        start := q.2.arrival.time,
                        duration := walk_time (dist stop0.loc toP) }]) := by
    simp
  have htr2 : translateSegments S
      (Segment.walk w :: (mid.reverse ++
        [Segment.walk { fromPt := ⟨stop0.loc, some stop0.name⟩,
                        toPt := ⟨toP, none⟩,
                        start := q.2.arrival.time,
                        duration := walk_time (dist stop0.loc toP) }])) =
      some l' := by
    rw [← hrev]
    exact htr
  obtain ⟨rest2, hl', htrrest⟩ := translate_head_walk htr2
  have hlastRev :
      (Segment.walk w :: (mid.reverse ++
        [Segment.walk { fromPt := ⟨stop0.loc, some stop0.name⟩,
                        toPt := ⟨toP, none⟩,
                        start := q.2.arrival.time,
                        duration := walk_time (dist stop0.loc toP) }])).getLast?
      = some (Segment.walk { fromPt := ⟨stop0.loc, some stop0.name⟩,
                             toPt := ⟨toP, none⟩,
                             start := q.2.arrival.time,
                             duration := walk_time (dist stop0.loc toP) }) := by
    show ((Segment.walk w :: mid.reverse) ++
      [Segment.walk { fromPt := ⟨stop0.loc, some stop0.name⟩,
                      toPt := ⟨toP, none⟩,
                      start := q.2.arrival.time,
                      duration := walk_time (dist stop0.loc toP) }]).getLast? = _
    exact List.getLast?_concat _
  have hlast' := translate_last_walk hlastRev htr2
  obtain ⟨rest3, hbus⟩ := dedupBus_head_walk w rest2
  have hbuslast : (dedupFrom mergeBusSeg (Segment.walk w) rest2).getLast? =
      some (Segment.walk { fromPt := ⟨stop0.loc, some stop0.name⟩,
                           toPt := ⟨toP, none⟩,
                           start := q.2.arrival.time,
                           duration := walk_time (dist stop0.loc toP) }) := by
    refine dedupBus_last_walk rest2 (Segment.walk w) _ ?_
    rw [← hl']
    exact hlast'
  have hbus' : dedupFrom mergeBusSeg (Segment.walk w) rest2 =
      Segment.walk w :: rest3 := by
    rw [← hbus]
    rfl
  have hmidlast : (Segment.walk w :: rest3).getLast? =
      some (Segment.walk { fromPt := ⟨stop0.loc, some stop0.name⟩,
                           toPt := ⟨toP, none⟩,
                           start := q.2.arrival.time,
                           duration := walk_time (dist stop0.loc toP) }) := by
    rw [← hbus']
    exact hbuslast
  obtain ⟨w', rest4, hwhead, hwfrom'⟩ := dedupWalk_head_walk rest3 w
  obtain ⟨w2, hwlast, hw2to⟩ := dedupWalk_last_walk rest3 (Segment.walk w) _
    hmidlast
  have hpp : post_process_segments l' = Segment.walk w' :: rest4 := by
    unfold post_process_segments
    rw [hl', hbus]
    show dedupFrom mergeWalkSeg (Segment.walk w) rest3 = _
    exact hwhead
  have hpplast : (post_process_segments l').getLast? =
      some (Segment.walk w2) := by
    unfold post_process_segments
    rw [hl', hbus]
    show (dedupFrom mergeWalkSeg (Segment.walk w) rest3).getLast? = _
    exact hwlast
  refine ⟨{ segments := post_process_segments l',
            departure_time := dt, arrival_time := at_.time }, ?_, ?_, ?_, ?_⟩
  · simp only [findRoute, hloop, hsel, hlookS, hlookT, hrec, htr]
  · show post_process_segments l' ≠ []
    rw [hpp]
    exact List.cons_ne_nil _ _
  · refine ⟨w', rest4, hpp, ?_⟩
    rw [hwfrom']
    exact hwfrom
  · exact ⟨w2, hpplast, hw2to⟩

/-- C9 (confirmed): under the data invariant that stop ids are unique and
every route's `next_stop` exists (guaranteed by the `HashMap` and the
builder's `expect`), the search loop terminates normally, each settled
stop's `walk_finish` is `none` exactly when the stop is farther than
`MAX_WALK_DISTANCE` from the destination, and `find_route` returns `None`
(without panicking) when every settled stop lacks a `walk_finish`, and
`Some` route when at least one settled stop has one. -/
theorem c9_none_iff_no_reachable_finish (S : StopMap)
    (dist : Point → Point → Rat) (from_ toP : Point) (departure : Timestamp)
    (hwf : WellFormedStops S) :
    ∃ times,
      searchLoop S dist departure toP
        (searchFuel S [] (initialItems S dist from_ departure)) []
        (initialItems S dist from_ departure) = some times ∧
      (∀ p ∈ times, ∃ stop, lookupStop S p.1 = some stop ∧
        (p.2.walk_finish = none ↔ dist stop.loc toP > MAX_WALK_DISTANCE)) ∧
      ((∀ p ∈ times, p.2.walk_finish = none) →
        findRoute ⟨S⟩ dist from_ toP departure = some none) ∧
      ((∃ p ∈ times, p.2.walk_finish ≠ none) →
        ∃ r, findRoute ⟨S⟩ dist from_ toP departure = some (some r)) := by
  obtain ⟨times, hloop, hT⟩ := findRoute_run S dist from_ toP departure hwf
  refine ⟨times, hloop, ?_, ?_, ?_⟩
  · intro p hp
    obtain ⟨⟨i, hi⟩, hgi⟩ := List.mem_iff_get.mp hp
    obtain ⟨⟨stop, hst, hwfeq⟩, _, _⟩ := hT.2 i hi
    rw [hgi] at hst hwfeq
    refine ⟨stop, hst, ?_⟩
    rw [hwfeq]
    split_ifs with hfar
    · exact iff_of_true rfl hfar
    · exact iff_of_false (by simp) hfar
  · intro hall
    exact findRoute_noRoute hloop hall
  · intro hex
    obtain ⟨r, hr, _⟩ := findRoute_success hloop hT hex
    exact ⟨r, hr⟩

/-- One stop "A" (100 m from everything under `c9Dist`), no routes. -/
def c9Stops : StopMap := [("A", ⟨"StopA", ⟨1⟩, []⟩)]

/-- Distance oracle for the C9/C10 scenario: every pair is 100 m apart. -/
def c9Dist : Point → Point → Rat := fun _ _ => 100

theorem c9_none_iff_no_reachable_finish_witness :
    WellFormedStops c9Stops ∧
    (∃ times,
      searchLoop c9Stops c9Dist (tsOf .monday 10 0) ⟨2⟩
        (searchFuel c9Stops []
          (initialItems c9Stops c9Dist ⟨0⟩ (tsOf .monday 10 0))) []
        (initialItems c9Stops c9Dist ⟨0⟩ (tsOf .monday 10 0)) = some times ∧
      (∀ p ∈ times, ∃ stop, lookupStop c9Stops p.1 = some stop ∧
        (p.2.walk_finish = none ↔
          c9Dist stop.loc ⟨2⟩ > MAX_WALK_DISTANCE)) ∧
      ((∀ p ∈ times, p.2.walk_finish = none) →
        findRoute ⟨c9Stops⟩ c9Dist ⟨0⟩ ⟨2⟩ (tsOf .monday 10 0) = some none) ∧
      ((∃ p ∈ times, p.2.walk_finish ≠ none) →
        ∃ r, findRoute ⟨c9Stops⟩ c9Dist ⟨0⟩ ⟨2⟩ (tsOf .monday 10 0) =
          some (some r))) :=
  ⟨by decide,
    c9_none_iff_no_reachable_finish c9Stops c9Dist ⟨0⟩ ⟨2⟩
      (tsOf .monday 10 0) (by decide)⟩

/-- C10 (confirmed): under the same data invariant, every route returned by
`find_route` has a non-empty segment list, begins with a Walk whose start is
the name-free origin point, and ends with a Walk whose end is the name-free
destination point — the shape survives both coalescing passes of
`post_process_route`. -/
theorem c10_route_endpoints_shape (S : StopMap)
    (dist : Point → Point → Rat) (from_ toP : Point) (departure : Timestamp)
    (r : Route) (hwf : WellFormedStops S)
    (hr : findRoute ⟨S⟩ dist from_ toP departure = some (some r)) :
    r.segments ≠ [] ∧
    (∃ w rest, r.segments = Segment.walk w :: rest ∧
      w.fromPt = ⟨from_, none⟩) ∧
    (∃ w2, r.segments.getLast? = some (Segment.walk w2) ∧
      w2.toPt = ⟨toP, none⟩) := by
  obtain ⟨times, hloop, hT⟩ := findRoute_run S dist from_ toP departure hwf
  by_cases hall : ∀ p ∈ times, p.2.walk_finish = none
  · rw [findRoute_noRoute hloop hall] at hr
    simp at hr
  · have hex : ∃ p ∈ times, p.2.walk_finish ≠ none := by
      push_neg at hall
      exact hall
    obtain ⟨r', hr', hne, hhead, hlast⟩ := findRoute_success hloop hT hex
    rw [hr'] at hr
    have heq : r' = r := by
      injection hr with h
      injection h
    subst heq
    exact ⟨hne, hhead, hlast⟩

/-- The route `find_route` produces in the C10 witness scenario: the origin
walk and the final walk coalesce into one 180-second walk. -/
def c10Route : Route :=
  { segments := [Segment.walk { fromPt := ⟨⟨0⟩, none⟩, toPt := ⟨⟨2⟩, none⟩,
                                start := ⟨36000⟩, duration := 180 }],
    departure_time := ⟨36000⟩, arrival_time := ⟨36180⟩ }

unseal Rat.mul Rat.inv Rat.add in
theorem c10_route_endpoints_shape_witness :
    WellFormedStops c9Stops ∧
    findRoute ⟨c9Stops⟩ c9Dist ⟨0⟩ ⟨2⟩ (tsOf .monday 10 0) =
      some (some c10Route) ∧
    (c10Route.segments ≠ [] ∧
      (∃ w rest, c10Route.segments = Segment.walk w :: rest ∧
        w.fromPt = ⟨⟨0⟩, none⟩) ∧
      (∃ w2, c10Route.segments.getLast? = some (Segment.walk w2) ∧
        w2.toPt = ⟨⟨2⟩, none⟩)) :=
  ⟨by decide, by decide,
    c10_route_endpoints_shape c9Stops c9Dist ⟨0⟩ ⟨2⟩ (tsOf .monday 10 0)
      c10Route (by decide) (by decide)⟩
